import Mathlib

/-!
Shallow embedding of the Ghost-Write content-aware image-editing engine:
the brush-mask generator and pixel accessor (`src/utils/canvas-util.ts`),
the eraser, magic-brush point operator, bilateral smoothing pass and
area-fill orchestrator (`src/utils/image-processing.ts`), and the
area-selection guard (`src/hooks/useDrawingHandlers.ts`), together with
proofs about them.

Modelling conventions:
* JS numbers carrying pixel coordinates are modelled as `ℚ` (event
  coordinates are fractional); array indices and byte values as `ℕ`;
  channel differences as `ℤ`.
* An `ImageData` object is a `Buffer`: width, height and a flat RGBA
  array modelled as a total function `ℕ → ℕ` from flat indices to byte
  values (the source only reads and writes in-range indices).
* `Math.round` is `fun q => ⌊q + 1/2⌋`, which is what JS computes for
  every input; `Math.floor` on a nonnegative division is `ℕ` division.
* Assignments into a `Uint8ClampedArray` clamp to `[0, 255]`.
* `Math.random`-driven choices in the magic brush are modelled by
  passing the chosen candidate sample coordinates in as an input list
  (the source derives them from `Math.cos`/`Math.sin` of random angles;
  everything from the bounds check onward is embedded faithfully).
-/

/-- A raster buffer in the style of the DOM `ImageData` object: a width, a
height, and a flat RGBA byte array addressed as `(y * width + x) * 4 + c`.
The `data` field is a total function from flat indices to byte values. -/
@[ext]
structure Buffer where
  width : ℕ
  height : ℕ
  data : ℕ → ℕ

/-- Pointwise update of a flat byte array, modelling `data[i] = v`. -/
def upd (f : ℕ → ℕ) (i v : ℕ) : ℕ → ℕ :=
  fun n => if n = i then v else f n

/-- Run a list of `(index, value)` stores left to right, modelling a loop of
JS array assignments. -/
def foldWrite (ws : List (ℕ × ℕ)) (f : ℕ → ℕ) : ℕ → ℕ :=
  ws.foldl (fun g p => upd g p.1 p.2) f

/-- `Math.round`: JS rounds half up (toward `+∞`) for every real input. -/
def jround (q : ℚ) : ℤ := ⌊q + 1 / 2⌋

/-- Storing an integer into a `Uint8ClampedArray` slot clamps it into
`[0, 255]`. -/
def clamp255 (z : ℤ) : ℕ := (min 255 (max 0 z)).toNat

/-- `getPixelData` from `src/utils/canvas-util.ts`: read one RGBA pixel and
its flat index. -/
structure PixelData where
  r : ℕ
  g : ℕ
  b : ℕ
  a : ℕ
  index : ℕ

/-- `getPixelData(imageData, x, y)`: `index = (y·width + x)·4`, then the four
channel bytes at `index .. index+3`. -/
def getPixelData (imageData : Buffer) (x y : ℕ) : PixelData :=
  let index := (y * imageData.width + x) * 4
  { r := imageData.data index
    g := imageData.data (index + 1)
    b := imageData.data (index + 2)
    a := imageData.data (index + 3)
    index := index }

/-- Read of `mask[(i + radius) * diameter + (j + radius)]`, the index pattern
used by `applyEraser` and `applyMagicBrush` (with
`diameter = 2·radius + 1`).  A JS out-of-range read yields `undefined`,
which is falsy; reading `0` models that (all reads performed by the source
are in range for masks produced by `generateBrushMask`). -/
def maskCell (mask : List ℕ) (radius i j : ℤ) : ℕ :=
  mask.getD ((i + radius) * (2 * radius + 1) + (j + radius)).toNat 0

/-- `generateBrushMask` from `src/utils/canvas-util.ts`.  The source loops
`i` then `j` over `[-radius, radius]` and assigns cell
`(i+radius)·diameter + (j+radius)`, which lays the cells out row-major;
the flattened double loop is embedded as `flatMap`/`map` over the shifted
indices `ti = i + radius`, `tj = j + radius`.  The source condition
`Math.sqrt(i*i + j*j) > radius ? 0 : 1` is embedded as the exactly
equivalent integer test `i*i + j*j ≤ radius²` (both sides nonnegative). -/
def generateBrushMask (brushSize : ℕ) : List ℕ :=
  let radius : ℕ := brushSize / 2
  let diameter : ℕ := 2 * radius + 1
  (List.range diameter).flatMap fun ti : ℕ =>
    (List.range diameter).map fun tj : ℕ =>
      let i : ℤ := (ti : ℤ) - radius
      let j : ℤ := (tj : ℤ) - radius
      if i * i + j * j ≤ (radius : ℤ) * radius then 1 else 0

/-- The loop range `for (let i = -radius; i <= radius; i++)`. -/
def offsetRange (radius : ℕ) : List ℤ :=
  (List.range (2 * radius + 1)).map fun t : ℕ => (t : ℤ) - radius

/-- Flat-index translation between the canvas-sized buffer (width `w`) and
the original buffer: decode `(x, y, channel)` from a canvas flat index and
re-encode it with the original buffer's width, mirroring how the source
computes `pixelIndex` from canvas width but reads `originalImageData`
through `getPixelData` with the original's width. -/
def reindexTo (orig : Buffer) (w : ℕ) (n : ℕ) : ℕ :=
  ((n / 4 / w) * orig.width + n / 4 % w) * 4 + n % 4

/-- The sequence of byte stores performed by `applyEraser` from
`src/utils/image-processing.ts`: for every mask cell `(i, j)` with a truthy
value, round the target coordinate, bounds-check it against the canvas, and
copy the original pixel's R, G, B (not alpha) into the working buffer. -/
def eraserWrites (x y : ℚ) (context orig : Buffer) (brushMask : List ℕ)
    (brushSize : ℕ) : List (ℕ × ℕ) :=
  let radius : ℕ := brushSize / 2
  (offsetRange radius).flatMap fun i : ℤ =>
    (offsetRange radius).flatMap fun j : ℤ =>
      if maskCell brushMask (radius : ℤ) i j ≠ 0 then
        let pixelX := jround (x + j)
        let pixelY := jround (y + i)
        if 0 ≤ pixelX ∧ pixelX < context.width ∧ 0 ≤ pixelY ∧ pixelY < context.height
        then
          let pixelIndex := (pixelY.toNat * context.width + pixelX.toNat) * 4
          let origPixel := getPixelData orig pixelX.toNat pixelY.toNat
          [(pixelIndex, origPixel.r), (pixelIndex + 1, origPixel.g),
            (pixelIndex + 2, origPixel.b)]
        else []
      else []

/-- `applyEraser(x, y, context, originalImageData, brushMask, brushSize)`:
read the canvas-sized working image, run the mask loop of stores, and put
the result back.  The source's early return when context, original image or
mask is absent is a precondition failure modelled away by total arguments;
its `{x, y, radius, type: 'eraser'}` return value carries no pixel data and
is not modelled. -/
def applyEraser (x y : ℚ) (context orig : Buffer) (brushMask : List ℕ)
    (brushSize : ℕ) : Buffer :=
  { context with
    data := foldWrite (eraserWrites x y context orig brushMask brushSize) context.data }

/-- An entry of the magic brush's `colorMap`: a working-buffer color plus its
similarity (sum of absolute channel differences) to the reference color. -/
structure ColorSample where
  r : ℕ
  g : ℕ
  b : ℕ
  similarity : ℕ

/-- An R, G, B triple. -/
structure RGB where
  r : ℕ
  g : ℕ
  b : ℕ

/-- The magic brush's reference color: `originalBuffer` bytes at
`centerPixelIndex = (round(y)·width + round(x))·4`, where `width` is the
canvas width.  The source computes this index with the canvas width and
reads it from the original image's array; an out-of-range read (never
exercised here) is modelled by `toNat` truncation of the index. -/
def magicCenterColor (x y : ℚ) (orig : Buffer) (width : ℕ) : RGB :=
  let centerPixelIndex := ((jround y * width + jround x) * 4).toNat
  { r := orig.data centerPixelIndex
    g := orig.data (centerPixelIndex + 1)
    b := orig.data (centerPixelIndex + 2) }

/-- The recorded entries of the magic brush's `colorMap`, in loop order.
`proposals` is the list of 25 randomly chosen (already rounded) candidate
coordinates `(sampleX, sampleY)`; out-of-bounds proposals are skipped by
`continue`.  Each kept entry records the working buffer's R, G, B at the
sample point and the similarity of the original buffer's color there to
the reference color. -/
def candidateSamples (x y : ℚ) (orig cur : Buffer)
    (proposals : List (ℤ × ℤ)) : List ColorSample :=
  let center := magicCenterColor x y orig cur.width
  proposals.filterMap fun q : ℤ × ℤ =>
    if 0 ≤ q.1 ∧ q.1 < cur.width ∧ 0 ≤ q.2 ∧ q.2 < cur.height then
      let sampleIndex := (q.2.toNat * cur.width + q.1.toNat) * 4
      some { r := cur.data sampleIndex
             g := cur.data (sampleIndex + 1)
             b := cur.data (sampleIndex + 2)
             similarity := ((orig.data sampleIndex : ℤ) - center.r).natAbs
               + ((orig.data (sampleIndex + 1) : ℤ) - center.g).natAbs
               + ((orig.data (sampleIndex + 2) : ℤ) - center.b).natAbs }
    else none

/-- `Array.from(colorMap.values()).sort((a, b) => a.similarity - b.similarity)
.slice(0, 10)`: stably sort ascending by similarity and keep the first 10.
JS `Array.prototype.sort` is required to be stable and this comparator
orders by similarity, which `mergeSort` models exactly. -/
def sortedColors (x y : ℚ) (orig cur : Buffer)
    (proposals : List (ℤ × ℤ)) : List ColorSample :=
  ((candidateSamples x y orig cur proposals).mergeSort
    fun a b => a.similarity ≤ b.similarity).take 10

/-- `weight = 1 / (color.similarity + 1)`. -/
def sampleWeight (s : ColorSample) : ℚ := 1 / (s.similarity + 1)

/-- `totalWeight` accumulated over the kept samples. -/
def totalWeight (l : List ColorSample) : ℚ := (l.map sampleWeight).sum

/-- `weightedR` accumulated over the kept samples. -/
def weightedR (l : List ColorSample) : ℚ := (l.map fun s => (s.r : ℚ) * sampleWeight s).sum

/-- `weightedG` accumulated over the kept samples. -/
def weightedG (l : List ColorSample) : ℚ := (l.map fun s => (s.g : ℚ) * sampleWeight s).sum

/-- `weightedB` accumulated over the kept samples. -/
def weightedB (l : List ColorSample) : ℚ := (l.map fun s => (s.b : ℚ) * sampleWeight s).sum

/-- The byte the magic brush stores into channel `c` of a painted pixel:
the rounded, clamped weighted average of the kept samples' channel `c`. -/
def blendValue (c : ℕ) (sc : List ColorSample) : ℕ :=
  clamp255 (jround
    ((if c = 0 then weightedR sc else if c = 1 then weightedG sc else weightedB sc)
      / totalWeight sc))

/-- The stores performed by the brush-area loop of `applyMagicBrush`: for
every mask cell with nonzero `blendFactor` and in-bounds rounded target
pixel, when `totalWeight > 0`, store the rounded weighted averages into the
pixel's R, G, B channels. -/
def magicWrites (x y : ℚ) (orig cur : Buffer) (brushSize : ℕ)
    (actualBrushMask : List ℕ) (proposals : List (ℤ × ℤ)) : List (ℕ × ℕ) :=
  let radius : ℕ := brushSize / 2
  let sc := sortedColors x y orig cur proposals
  (offsetRange radius).flatMap fun i : ℤ =>
    (offsetRange radius).flatMap fun j : ℤ =>
      if maskCell actualBrushMask (radius : ℤ) i j = 0 then []
      else
        let pixelX := jround (x + j)
        let pixelY := jround (y + i)
        if 0 ≤ pixelX ∧ pixelX < cur.width ∧ 0 ≤ pixelY ∧ pixelY < cur.height then
          if 0 < totalWeight sc then
            let pixelIndex := (pixelY.toNat * cur.width + pixelX.toNat) * 4
            [(pixelIndex, blendValue 0 sc), (pixelIndex + 1, blendValue 1 sc),
              (pixelIndex + 2, blendValue 2 sc)]
          else []
        else []

/-- `applyMagicBrush(x, y, context, origImgData, currentImgData, brushSize,
brushMask)` from `src/utils/image-processing.ts`, mutating the working
image in place.  The canvas dimensions equal the working image's (the
source always passes a full-canvas `getImageData`).  The guard returning
early when context or original image is absent is modelled away by total
arguments. -/
def applyMagicBrush (x y : ℚ) (orig cur : Buffer) (brushSize : ℕ)
    (brushMask : Option (List ℕ)) (proposals : List (ℤ × ℤ)) : Buffer :=
  let actualBrushMask := brushMask.getD (generateBrushMask brushSize)
  { cur with
    data := foldWrite (magicWrites x y orig cur brushSize actualBrushMask proposals)
      cur.data }

/-- A concrete 2×2 RGBA test buffer. -/
def bufA : Buffer := { width := 2, height := 2, data := fun n => n % 7 }

/-- A second concrete 2×2 RGBA test buffer with different contents. -/
def bufB : Buffer := { width := 2, height := 2, data := fun n => n % 5 + 20 }

/-- Fuel-indexed unfolding of the loop `for (v = lo; v <= hi; v += step)`
collecting the loop variable's values. -/
def gridAxisAux : ℕ → ℚ → ℚ → ℚ → List ℚ
  | 0, _, _, _ => []
  | fuel + 1, lo, hi, step =>
      if lo ≤ hi then lo :: gridAxisAux fuel (lo + step) hi step else []

/-- The values taken by the loop variable of
`for (v = lo; v <= hi; v += step)`.  The fuel `(⌊(hi-lo)/step⌋ + 1).toNat`
is exactly the iteration count for `0 < step`; `gridAxis_nil` and
`gridAxis_cons` below certify the loop's defining equations, so the
definition does not depend on the fuel expression. -/
def gridAxis (lo hi step : ℚ) : List ℚ :=
  gridAxisAux (⌊(hi - lo) / step⌋ + 1).toNat lo hi step

/-- `SMOOTHING_KERNEL_SIZE` from `src/utils/constants.ts`. -/
def SMOOTHING_KERNEL_SIZE : ℕ := 5

/-- `COLOR_SIGMA` from `src/utils/constants.ts`. -/
def COLOR_SIGMA : ℕ := 150

/-- `Math.round` on the (real-valued) float quantities of the smoothing
pass. -/
noncomputable def jroundR (x : ℝ) : ℤ := ⌊x + 1 / 2⌋

/-- The loop range `for (v = lo; v <= hi; v++)` over integers. -/
def intRange (lo hi : ℤ) : List ℤ :=
  (List.range (hi + 1 - lo).toNat).map fun t : ℕ => lo + t

/-- The bilateral filter weight of kernel offset `(dx, dy)` at center pixel
`(x, y)`: `spatialWeight · colorSimilarity`, with
`spatialWeight = exp(-(dx²+dy²)/(2·radius²))` and
`colorSimilarity = exp(-colorDist/(2·σ²))`, `colorDist` being the summed
squared channel differences of the neighbor against the center, all read
from the pass's input `data` (the float arithmetic of `Math.exp` is
idealised as exact real arithmetic). -/
noncomputable def bilateralWeight (buf : Buffer) (x y dx dy : ℤ) : ℝ :=
  let radius : ℕ := SMOOTHING_KERNEL_SIZE / 2
  let pixelIndex := (y.toNat * buf.width + x.toNat) * 4
  let neighborIndex := ((y + dy).toNat * buf.width + (x + dx).toNat) * 4
  let spatialDist : ℤ := dx * dx + dy * dy
  let spatialWeight : ℝ := Real.exp (-(spatialDist : ℝ) / (2 * radius * radius))
  let colorDist : ℝ :=
    ((buf.data neighborIndex : ℝ) - (buf.data pixelIndex : ℝ)) ^ 2
    + ((buf.data (neighborIndex + 1) : ℝ) - (buf.data (pixelIndex + 1) : ℝ)) ^ 2
    + ((buf.data (neighborIndex + 2) : ℝ) - (buf.data (pixelIndex + 2) : ℝ)) ^ 2
  spatialWeight * Real.exp (-colorDist / (2 * (COLOR_SIGMA : ℝ) * COLOR_SIGMA))

/-- `totalWeight` accumulated by the bilateral kernel loop at `(x, y)`:
out-of-bounds neighbors are skipped. -/
noncomputable def bilateralDen (buf : Buffer) (x y : ℤ) : ℝ :=
  ((offsetRange (SMOOTHING_KERNEL_SIZE / 2)).flatMap fun dy : ℤ =>
    (offsetRange (SMOOTHING_KERNEL_SIZE / 2)).map fun dx : ℤ =>
      if 0 ≤ x + dx ∧ x + dx < buf.width ∧ 0 ≤ y + dy ∧ y + dy < buf.height
      then bilateralWeight buf x y dx dy else 0).sum

/-- `sumR`/`sumG`/`sumB` (channel `c`) accumulated by the bilateral kernel
loop at `(x, y)`. -/
noncomputable def bilateralNum (buf : Buffer) (x y : ℤ) (c : ℕ) : ℝ :=
  ((offsetRange (SMOOTHING_KERNEL_SIZE / 2)).flatMap fun dy : ℤ =>
    (offsetRange (SMOOTHING_KERNEL_SIZE / 2)).map fun dx : ℤ =>
      if 0 ≤ x + dx ∧ x + dx < buf.width ∧ 0 ≤ y + dy ∧ y + dy < buf.height
      then (buf.data (((y + dy).toNat * buf.width + (x + dx).toNat) * 4 + c) : ℝ)
        * bilateralWeight buf x y dx dy
      else 0).sum

/-- The pixels recomputed by the bilateral pass: the selection rect expanded
by `padding = 10`, additionally clamped to stay `radius` pixels inside the
buffer borders (`y` from `max(radius, y1-10)` to
`min(height-radius-1, y2+10)`, and likewise for `x`). -/
def computeRegion (buf : Buffer) (x1 y1 x2 y2 : ℤ) : List (ℤ × ℤ) :=
  let radius : ℤ := (SMOOTHING_KERNEL_SIZE / 2 : ℕ)
  let padding : ℤ := 10
  (intRange (max radius (y1 - padding)) (min ((buf.height : ℤ) - radius - 1) (y2 + padding))).flatMap
    fun y : ℤ =>
      (intRange (max radius (x1 - padding)) (min ((buf.width : ℤ) - radius - 1) (x2 + padding))).map
        fun x : ℤ => (x, y)

/-- The pixels of the copy-back loop: the selection rect expanded by
`padding = 10`, clamped to the buffer bounds. -/
def copyRegion (buf : Buffer) (x1 y1 x2 y2 : ℤ) : List (ℤ × ℤ) :=
  let padding : ℤ := 10
  (intRange (max 0 (y1 - padding)) (min ((buf.height : ℤ) - 1) (y2 + padding))).flatMap
    fun y : ℤ =>
      (intRange (max 0 (x1 - padding)) (min ((buf.width : ℤ) - 1) (x2 + padding))).map
        fun x : ℤ => (x, y)

/-- The stores of the bilateral pass's main loop into the scratch copy
`tempData`: for each pixel of the compute region, when `totalWeight > 0`,
the rounded normalized weighted averages of R, G, B. -/
noncomputable def smoothTempWrites (buf : Buffer) (x1 y1 x2 y2 : ℤ) : List (ℕ × ℕ) :=
  (computeRegion buf x1 y1 x2 y2).flatMap fun p : ℤ × ℤ =>
    if 0 < bilateralDen buf p.1 p.2 then
      let pixelIndex := (p.2.toNat * buf.width + p.1.toNat) * 4
      [(pixelIndex, clamp255 (jroundR (bilateralNum buf p.1 p.2 0 / bilateralDen buf p.1 p.2))),
        (pixelIndex + 1,
          clamp255 (jroundR (bilateralNum buf p.1 p.2 1 / bilateralDen buf p.1 p.2))),
        (pixelIndex + 2,
          clamp255 (jroundR (bilateralNum buf p.1 p.2 2 / bilateralDen buf p.1 p.2)))]
    else []

/-- The scratch copy `tempData`: a copy of the pass's input `data` with the
bilateral averages written over the compute region. -/
noncomputable def smoothTemp (buf : Buffer) (x1 y1 x2 y2 : ℤ) : ℕ → ℕ :=
  foldWrite (smoothTempWrites buf x1 y1 x2 y2) buf.data

/-- The stores of the copy-back loop: for each pixel of the padded rect,
copy the scratch's R, G, B (not alpha) back over the original data. -/
noncomputable def smoothCopyWrites (buf : Buffer) (x1 y1 x2 y2 : ℤ) : List (ℕ × ℕ) :=
  (copyRegion buf x1 y1 x2 y2).flatMap fun p : ℤ × ℤ =>
    let pixelIndex := (p.2.toNat * buf.width + p.1.toNat) * 4
    [(pixelIndex, smoothTemp buf x1 y1 x2 y2 pixelIndex),
      (pixelIndex + 1, smoothTemp buf x1 y1 x2 y2 (pixelIndex + 1)),
      (pixelIndex + 2, smoothTemp buf x1 y1 x2 y2 (pixelIndex + 2))]

/-- `applyFinalSmoothing(x1, y1, x2, y2, imageData, context)` from
`src/utils/image-processing.ts` (the context only supplies the canvas
dimensions, which equal the image's): copy `data` into a scratch
`tempData`, write the bilateral averages into the scratch over the compute
region, then copy the scratch's R, G, B back over the padded rect. -/
noncomputable def applyFinalSmoothing (x1 y1 x2 y2 : ℤ) (imageData : Buffer) : Buffer :=
  { imageData with
    data := foldWrite (smoothCopyWrites imageData x1 y1 x2 y2) imageData.data }

/-- The record passed to `onComplete`. -/
structure AnnotatedArea where
  x : ℚ
  y : ℚ
  x2 : ℚ
  y2 : ℚ
  type : String

/-- The observable outcome of one area-fill invocation: the final canvas
buffer, the values passed to `onProgressUpdate` in order, the points fed to
`applyMagicBrush` in order, the argument of the `onComplete` call (if any),
and whether an exception escaped to the caller (the source's `try/catch`
swallows every exception, so `errorPropagated` is `false` on both the
success and the error path). -/
structure AreaFillRun where
  buffer : Buffer
  progress : List ℤ
  pointsApplied : List (ℚ × ℚ)
  completed : Option AnnotatedArea
  errorPropagated : Bool

/-- `gridSize = Math.max(Math.floor(brushSize / 3), 5)`. -/
def areaFillGridSize (brushSize : ℕ) : ℕ := max (brushSize / 3) 5

/-- The sample points of the area fill: every grid intersection
`(x, y)` with `y` from `y1` to `y2` and `x` from `x1` to `x2`, step
`gridSize`, in loop order (`y` outer, `x` inner). -/
def areaFillPoints (x1 y1 x2 y2 : ℚ) (gridSize : ℕ) : List (ℚ × ℚ) :=
  (gridAxis y1 y2 (gridSize : ℚ)).flatMap fun y : ℚ =>
    (gridAxis x1 x2 (gridSize : ℚ)).map fun x : ℚ => (x, y)

/-- `totalChunks = Math.ceil(points.length / 100)`. -/
def areaFillTotalChunks (numPoints : ℕ) : ℕ := (numPoints + 99) / 100

/-- The indexed points of chunk `k`: indices `k·100` to
`min(k·100+100, points.length)`. -/
def chunkSlice (points : List (ℚ × ℚ)) (k : ℕ) : List (ℕ × ℚ × ℚ) :=
  (points.enum.drop (k * 100)).take 100

/-- Processing of one chunk: invoke `applyMagicBrush` at each of the
chunk's points against the shared working buffer, passing each point's
sample proposals from the ambient random stream `sampler` (indexed by the
global point index). -/
def applyChunk (orig : Buffer) (brushSize : ℕ) (brushMask : List ℕ)
    (sampler : ℕ → List (ℤ × ℤ)) (points : List (ℚ × ℚ)) (k : ℕ)
    (buf : Buffer) : Buffer :=
  (chunkSlice points k).foldl
    (fun b ip => applyMagicBrush ip.2.1 ip.2.2 orig b brushSize (some brushMask)
      (sampler ip.1))
    buf

/-- The buffer after the first `k` chunks have been applied. -/
def applyChunksUpTo (orig : Buffer) (brushSize : ℕ) (brushMask : List ℕ)
    (sampler : ℕ → List (ℤ × ℤ)) (points : List (ℚ × ℚ)) (k : ℕ)
    (buf : Buffer) : Buffer :=
  (List.range k).foldl
    (fun b t => applyChunk orig brushSize brushMask sampler points t b) buf

/-- The progress value reported after chunk `k` completes:
`Math.min(100, Math.round((currentChunk / totalChunks) * 100))` with
`currentChunk = k + 1`. -/
def chunkProgress (totalChunks k : ℕ) : ℤ :=
  min 100 (jround ((((k + 1 : ℕ) : ℚ) / (totalChunks : ℚ)) * 100))

/-- The `while (currentChunk < totalChunks)` loop of
`processChunksSequentially`/`processNextChunk`, with chunk counter `k` and
`remaining = totalChunks - k` as structural fuel.  `fault k = true` models
an exception raised while processing chunk `k` (the spec's mid-fill
exception, e.g. resource exhaustion); the source itself contains no
fallible call that is modelled more finely.  Returns the final buffer, the
reported progress values, the points applied, and whether an exception was
raised. -/
def processChunks (orig : Buffer) (brushSize : ℕ) (brushMask : List ℕ)
    (sampler : ℕ → List (ℤ × ℤ)) (fault : ℕ → Bool) (points : List (ℚ × ℚ))
    (totalChunks : ℕ) :
    ℕ → ℕ → Buffer → Buffer × List ℤ × List (ℚ × ℚ) × Bool
  | 0, _, buf => (buf, [], [], false)
  | remaining + 1, k, buf =>
    if fault k then (buf, [], [], true)
    else
      let buf' := applyChunk orig brushSize brushMask sampler points k buf
      let rest := processChunks orig brushSize brushMask sampler fault points
        totalChunks remaining (k + 1) buf'
      (rest.1, chunkProgress totalChunks k :: rest.2.1,
        (chunkSlice points k).map Prod.snd ++ rest.2.2.1, rest.2.2.2)

/-- The final-smoothing step of the orchestrator's success path.  The
source passes the (possibly fractional) rect coordinates straight into
`applyFinalSmoothing`; with any fractional coordinate the smoothing loops
address the typed arrays at non-integer indices, where reads give
`undefined` (making every `totalWeight` NaN, so no scratch write passes the
`> 0` guard) and writes are dropped, i.e. the pass degenerates to a no-op;
that degenerate path is modelled as the identity.  No claim below examines
the buffer of a completed fill. -/
noncomputable def smoothStep (x1 y1 x2 y2 : ℚ) (buf : Buffer) : Buffer :=
  if x1.den = 1 ∧ y1.den = 1 ∧ x2.den = 1 ∧ y2.den = 1
  then applyFinalSmoothing x1.num y1.num x2.num y2.num buf
  else buf

/-- `applyMagicBrushToArea` from `src/utils/image-processing.ts`:
report progress 0, normalize the selection rect, restore `tempImageData`
to the canvas if present and take that as the working buffer, generate one
brush mask, lay out the grid points, process them in chunks of 100, and on
success run the final smoothing and invoke `onComplete` with the area
record; on an exception, stop, report progress 0 again, and swallow the
error (`catch` logs it and does not rethrow, so the promise resolves
normally).  The guard returning early when context, area or original image is
absent is modelled away by total arguments. -/
noncomputable def applyMagicBrushToArea (areaStart areaEnd : ℚ × ℚ)
    (context orig : Buffer) (tempImageData : Option Buffer) (brushSize : ℕ)
    (sampler : ℕ → List (ℤ × ℤ)) (fault : ℕ → Bool) : AreaFillRun :=
  let x1 := min areaStart.1 areaEnd.1
  let y1 := min areaStart.2 areaEnd.2
  let x2 := max areaStart.1 areaEnd.1
  let y2 := max areaStart.2 areaEnd.2
  let currentImageData := tempImageData.getD context
  let brushMask := generateBrushMask brushSize
  let points := areaFillPoints x1 y1 x2 y2 (areaFillGridSize brushSize)
  let totalChunks := areaFillTotalChunks points.length
  let run := processChunks orig brushSize brushMask sampler fault points totalChunks
    totalChunks 0 currentImageData
  if run.2.2.2 then
    { buffer := run.1
      progress := 0 :: run.2.1 ++ [0]
      pointsApplied := run.2.2.1
      completed := none
      errorPropagated := false }
  else
    { buffer := smoothStep x1 y1 x2 y2 run.1
      progress := 0 :: run.2.1
      pointsApplied := run.2.2.1
      completed := some { x := x1, y := y1, x2 := x2, y2 := y2, type := "area-magic-brush" }
      errorPropagated := false }

/-- The orchestrator paired with the environment's cancellation state.  The
source's chunk loop consults no cancellation signal of any kind (no flag,
no `AbortController`), so the signal is necessarily unused: the run is the
plain `applyMagicBrushToArea` run whatever `cancelled` says. -/
noncomputable def applyMagicBrushToAreaWithCancel (cancelled : ℕ → Bool)
    (areaStart areaEnd : ℚ × ℚ) (context orig : Buffer)
    (tempImageData : Option Buffer) (brushSize : ℕ)
    (sampler : ℕ → List (ℤ × ℤ)) (fault : ℕ → Bool) : AreaFillRun :=
  applyMagicBrushToArea areaStart areaEnd context orig tempImageData brushSize
    sampler fault

/-- `throttledApplyToArea` from `src/hooks/useDrawingHandlers.ts`: compute
the selection's width and height as absolute differences of the drag endpoints; if
either is below 5 pixels, reset the selection and return without touching
the canvas or calling `applyMagicBrushToArea`; otherwise run the fill
(the UI-state updates `setProcessingArea`/`resetAreaSelection` are not
modelled). -/
noncomputable def throttledApplyToArea (areaStart areaEnd : ℚ × ℚ)
    (context orig : Buffer) (tempImageData : Option Buffer) (brushSize : ℕ)
    (sampler : ℕ → List (ℤ × ℤ)) (fault : ℕ → Bool) : AreaFillRun :=
  let width := |areaEnd.1 - areaStart.1|
  let height := |areaEnd.2 - areaStart.2|
  if width < 5 ∨ height < 5 then
    { buffer := context
      progress := []
      pointsApplied := []
      completed := none
      errorPropagated := false }
  else
    applyMagicBrushToArea areaStart areaEnd context orig tempImageData brushSize
      sampler fault

/-- The normalized grid points of an area-fill invocation. -/
def areaFillPointsOf (areaStart areaEnd : ℚ × ℚ) (brushSize : ℕ) : List (ℚ × ℚ) :=
  areaFillPoints (min areaStart.1 areaEnd.1) (min areaStart.2 areaEnd.2)
    (max areaStart.1 areaEnd.1) (max areaStart.2 areaEnd.2) (areaFillGridSize brushSize)

/-- A concrete 8×8 test buffer: every pixel has R, G, B = 10 and alpha 255,
except pixel `(0, 0)` whose R, G, B are 0. -/
def cbuf : Buffer :=
  { width := 8, height := 8, data := fun n => if n % 4 = 3 then 255 else if n < 3 then 0 else 10 }

/-- Decode the x coordinate of a flat channel index for a buffer of width
`w`. -/
def decodeX (w n : ℕ) : ℤ := ((n / 4 % w : ℕ) : ℤ)

/-- Decode the y coordinate of a flat channel index for a buffer of width
`w`. -/
def decodeY (w n : ℕ) : ℤ := ((n / 4 / w : ℕ) : ℤ)

/-- The byte the bilateral pass's main loop stores at channel index `n` of
the scratch copy: the rounded, clamped bilateral average of the decoded
pixel's channel `n % 4`, computed from the pass's input. -/
noncomputable def vSmooth (buf : Buffer) (n : ℕ) : ℕ :=
  clamp255 (jroundR (bilateralNum buf (decodeX buf.width n) (decodeY buf.width n) (n % 4)
    / bilateralDen buf (decodeX buf.width n) (decodeY buf.width n)))

/-- Evaluating a store list whose values are a function of the target index:
the result at `n` is `v n` if some store hits `n`, and the old value
otherwise. -/
theorem foldWrite_eval (v : ℕ → ℕ) :
    ∀ (ws : List (ℕ × ℕ)) (f : ℕ → ℕ), (∀ p ∈ ws, p.2 = v p.1) → ∀ n,
      foldWrite ws f n = if n ∈ ws.map Prod.fst then v n else f n := by
  intro ws
  induction ws with
  | nil => intro f _ n; simp [foldWrite]
  | cons w ws ih =>
    intro f hv n
    have hw : w.2 = v w.1 := hv w (List.mem_cons_self w ws)
    have hrec := ih (upd f w.1 w.2) (fun p hp => hv p (List.mem_cons_of_mem w hp)) n
    simp only [foldWrite, List.foldl_cons] at hrec ⊢
    rw [hrec]
    by_cases hmem : n ∈ ws.map Prod.fst
    · simp [hmem]
    · by_cases hn : n = w.1
      · subst hn
        simp [hmem, upd, hw]
      · simp [hmem, upd, hn]

theorem generateBrushMask_length (brushSize : ℕ) :
    (generateBrushMask brushSize).length = (2 * (brushSize / 2) + 1) ^ 2 := by
  unfold generateBrushMask
  simp [List.length_flatMap, Function.comp_def, List.map_const]
  ring

theorem flatMap_map_range_getD (d : ℕ) (f : ℕ → ℕ → ℕ) :
    ∀ (l : List ℕ) (a b : ℕ), a < l.length → b < d →
      (l.flatMap fun ti => (List.range d).map (f ti)).getD (a * d + b) 0
        = f (l.getD a 0) b := by
  intro l
  induction l with
  | nil => intro a b ha _; simp at ha
  | cons x xs ih =>
    intro a b ha hb
    match a with
    | 0 =>
      have hlen : b < ((List.range d).map (f x)).length := by
        simpa using hb
      rw [List.flatMap_cons, List.getD_append _ _ _ _ (by simpa using hb)]
      simp [List.getD_eq_getElem?_getD, hb]
    | a + 1 =>
      have hlen : ((List.range d).map (f x)).length = d := by simp
      have hidx : (a + 1) * d + b = ((List.range d).map (f x)).length + (a * d + b) := by
        rw [hlen]; ring
      rw [List.flatMap_cons, hidx, List.getD_append_right _ _ _ _ (by omega)]
      have := ih a b (by simpa using ha) hb
      simpa using this

/-- The cell of `generateBrushMask brushSize` read at offset `(i, j)` with
the source's index pattern, for offsets inside the mask square. -/
theorem maskCell_flatGrid (r : ℕ) (i j : ℤ)
    (hi₁ : -(r : ℤ) ≤ i) (hi₂ : i ≤ (r : ℤ))
    (hj₁ : -(r : ℤ) ≤ j) (hj₂ : j ≤ (r : ℤ)) :
    maskCell
      ((List.range (2 * r + 1)).flatMap fun ti : ℕ =>
        (List.range (2 * r + 1)).map fun tj : ℕ =>
          if ((ti : ℤ) - r) * ((ti : ℤ) - r) + ((tj : ℤ) - r) * ((tj : ℤ) - r)
            ≤ (r : ℤ) * r then 1 else 0)
      (r : ℤ) i j
      = if i * i + j * j ≤ (r : ℤ) * r then 1 else 0 := by
  have haeq : (((i + (r : ℤ)).toNat : ℕ) : ℤ) = i + (r : ℤ) :=
    Int.toNat_of_nonneg (by omega)
  have hbeq : (((j + (r : ℤ)).toNat : ℕ) : ℤ) = j + (r : ℤ) :=
    Int.toNat_of_nonneg (by omega)
  set a := (i + (r : ℤ)).toNat with hadef
  set b := (j + (r : ℤ)).toNat with hbdef
  have halt : a < 2 * r + 1 := by omega
  have hblt : b < 2 * r + 1 := by omega
  have hidx : ((i + (r : ℤ)) * (2 * (r : ℤ) + 1) + (j + (r : ℤ))).toNat
      = a * (2 * r + 1) + b := by
    have h1 : (i + (r : ℤ)) * (2 * (r : ℤ) + 1) + (j + (r : ℤ))
        = ((a * (2 * r + 1) + b : ℕ) : ℤ) := by
      push_cast
      rw [haeq, hbeq]
    rw [h1, Int.toNat_natCast]
  unfold maskCell
  rw [hidx, flatMap_map_range_getD (2 * r + 1)
      (fun ta tb => if ((ta : ℤ) - r) * ((ta : ℤ) - r) + ((tb : ℤ) - r) * ((tb : ℤ) - r)
        ≤ (r : ℤ) * r then 1 else 0)
      (List.range (2 * r + 1)) a b (by simpa using halt) hblt]
  have hget : (List.range (2 * r + 1)).getD a 0 = a := by
    rw [List.getD_eq_getElem?_getD, List.getElem?_range halt]
    rfl
  rw [hget]
  have hia : ((a : ℤ)) - (r : ℤ) = i := by omega
  have hjb : ((b : ℤ)) - (r : ℤ) = j := by omega
  simp only [hia, hjb]

theorem maskCell_generateBrushMask (brushSize : ℕ) (i j : ℤ)
    (hi₁ : -((brushSize / 2 : ℕ) : ℤ) ≤ i) (hi₂ : i ≤ ((brushSize / 2 : ℕ) : ℤ))
    (hj₁ : -((brushSize / 2 : ℕ) : ℤ) ≤ j) (hj₂ : j ≤ ((brushSize / 2 : ℕ) : ℤ)) :
    maskCell (generateBrushMask brushSize) ((brushSize / 2 : ℕ) : ℤ) i j
      = if i * i + j * j ≤ ((brushSize / 2 : ℕ) : ℤ) * ((brushSize / 2 : ℕ) : ℤ)
        then 1 else 0 := by
  unfold generateBrushMask
  exact maskCell_flatGrid (brushSize / 2) i j hi₁ hi₂ hj₁ hj₂

/-- The source test `Math.sqrt(i*i + j*j) ≤ radius` is equivalent to the
integer test `i² + j² ≤ radius²`. -/
theorem sqrt_cond_iff (r : ℕ) (i j : ℤ) :
    (Real.sqrt ((i : ℝ) ^ 2 + (j : ℝ) ^ 2) ≤ (((r : ℤ)) : ℝ))
      ↔ i * i + j * j ≤ (r : ℤ) * r := by
  rw [Real.sqrt_le_left (by positivity)]
  have h1 : ((i * i + j * j : ℤ) : ℝ) = (i : ℝ) ^ 2 + (j : ℝ) ^ 2 := by
    push_cast; ring
  have h2 : (((r : ℤ) * r : ℤ) : ℝ) = (((r : ℤ)) : ℝ) ^ 2 := by
    push_cast; ring
  rw [← h1, ← h2, Int.cast_le]

/-- C2: for every integer `brushSize ≥ 1`, `generateBrushMask` returns a mask
of exactly `(2·⌊brushSize/2⌋ + 1)²` cells; the cell read at index
`(i+radius)·diameter + (j+radius)` is `1` if `√(i² + j²) ≤ radius` and `0`
otherwise (`radius = ⌊brushSize/2⌋`, `diameter = 2·radius + 1`); the mask is
symmetric under 180° rotation; and the center cell is always `1`. -/
theorem generateBrushMask_correct (brushSize : ℕ) (hb : 1 ≤ brushSize) :
    (generateBrushMask brushSize).length = (2 * (brushSize / 2) + 1) ^ 2 ∧
    (∀ i j : ℤ, -((brushSize / 2 : ℕ) : ℤ) ≤ i → i ≤ ((brushSize / 2 : ℕ) : ℤ) →
      -((brushSize / 2 : ℕ) : ℤ) ≤ j → j ≤ ((brushSize / 2 : ℕ) : ℤ) →
      maskCell (generateBrushMask brushSize) ((brushSize / 2 : ℕ) : ℤ) i j
        = if Real.sqrt ((i : ℝ) ^ 2 + (j : ℝ) ^ 2) ≤ ((brushSize / 2 : ℕ) : ℤ)
          then 1 else 0) ∧
    (∀ i j : ℤ, -((brushSize / 2 : ℕ) : ℤ) ≤ i → i ≤ ((brushSize / 2 : ℕ) : ℤ) →
      -((brushSize / 2 : ℕ) : ℤ) ≤ j → j ≤ ((brushSize / 2 : ℕ) : ℤ) →
      maskCell (generateBrushMask brushSize) ((brushSize / 2 : ℕ) : ℤ) i j
        = maskCell (generateBrushMask brushSize) ((brushSize / 2 : ℕ) : ℤ) (-i) (-j)) ∧
    maskCell (generateBrushMask brushSize) ((brushSize / 2 : ℕ) : ℤ) 0 0 = 1 := by
  refine ⟨generateBrushMask_length brushSize, ?_, ?_, ?_⟩
  · intro i j hi₁ hi₂ hj₁ hj₂
    rw [maskCell_generateBrushMask brushSize i j hi₁ hi₂ hj₁ hj₂]
    by_cases h : i * i + j * j ≤ ((brushSize / 2 : ℕ) : ℤ) * ((brushSize / 2 : ℕ) : ℤ)
    · rw [if_pos h, if_pos ((sqrt_cond_iff (brushSize / 2) i j).mpr h)]
    · rw [if_neg h, if_neg (fun hc => h ((sqrt_cond_iff (brushSize / 2) i j).mp hc))]
  · intro i j hi₁ hi₂ hj₁ hj₂
    rw [maskCell_generateBrushMask brushSize i j hi₁ hi₂ hj₁ hj₂,
      maskCell_generateBrushMask brushSize (-i) (-j) (by omega) (by omega) (by omega)
        (by omega)]
    have : (-i) * (-i) + (-j) * (-j) = i * i + j * j := by ring
    rw [this]
  · rw [maskCell_generateBrushMask brushSize 0 0 (by omega) (by omega) (by omega)
      (by omega)]
    simp [mul_self_nonneg]

/-- Witness for `generateBrushMask_correct` at `brushSize = 5`
(radius 2, diameter 5) with the sample offset `(1, -2)`. -/
theorem generateBrushMask_correct_witness :
    1 ≤ 5 ∧ maskCell (generateBrushMask 5) ((5 / 2 : ℕ) : ℤ) 0 0 = 1 :=
  ⟨by decide, (generateBrushMask_correct 5 (by decide)).2.2.2⟩

theorem mem_offsetRange_iff (radius : ℕ) (i : ℤ) :
    i ∈ offsetRange radius ↔ -(radius : ℤ) ≤ i ∧ i ≤ (radius : ℤ) := by
  unfold offsetRange
  simp only [List.mem_map, List.mem_range]
  constructor
  · rintro ⟨t, ht, rfl⟩
    omega
  · intro ⟨h1, h2⟩
    exact ⟨(i + radius).toNat, by omega, by omega⟩

theorem reindexTo_encode (orig : Buffer) (w px py c : ℕ) (hpx : px < w) (hc : c < 4) :
    reindexTo orig w ((py * w + px) * 4 + c) = (py * orig.width + px) * 4 + c := by
  unfold reindexTo
  have h4 : ((py * w + px) * 4 + c) / 4 = py * w + px := by omega
  have h4' : ((py * w + px) * 4 + c) % 4 = c := by omega
  rw [h4, h4']
  have hmod : (py * w + px) % w = px := by
    rw [Nat.add_comm, Nat.add_mul_mod_self_right, Nat.mod_eq_of_lt hpx]
  have hdiv : (py * w + px) / w = py := by
    rw [Nat.add_comm, Nat.add_mul_div_right _ _ (by omega : 0 < w),
      Nat.div_eq_of_lt hpx, Nat.zero_add]
  rw [hmod, hdiv]

theorem eraserWrites_value (x y : ℚ) (ctx orig : Buffer) (mask : List ℕ) (b : ℕ) :
    ∀ p ∈ eraserWrites x y ctx orig mask b,
      p.2 = (fun n => orig.data (reindexTo orig ctx.width n)) p.1 := by
  intro p hp
  unfold eraserWrites at hp
  simp only [List.mem_flatMap] at hp
  obtain ⟨i, _, j, _, hmem⟩ := hp
  by_cases hm : maskCell mask ((b / 2 : ℕ) : ℤ) i j ≠ 0
  · rw [if_pos hm] at hmem
    by_cases hb : 0 ≤ jround (x + j) ∧ jround (x + j) < ctx.width
        ∧ 0 ≤ jround (y + i) ∧ jround (y + i) < ctx.height
    · rw [if_pos hb] at hmem
      obtain ⟨hb1, hb2, hb3, hb4⟩ := hb
      have hpx : (jround (x + j)).toNat < ctx.width := by omega
      simp only [List.mem_cons, List.not_mem_nil, or_false] at hmem
      rcases hmem with rfl | rfl | rfl
      · simpa [getPixelData] using
          (congrArg orig.data (reindexTo_encode orig ctx.width (jround (x + j)).toNat
            (jround (y + i)).toNat 0 hpx (by omega))).symm
      · simpa [getPixelData] using
          (congrArg orig.data (reindexTo_encode orig ctx.width (jround (x + j)).toNat
            (jround (y + i)).toNat 1 hpx (by omega))).symm
      · simpa [getPixelData] using
          (congrArg orig.data (reindexTo_encode orig ctx.width (jround (x + j)).toNat
            (jround (y + i)).toNat 2 hpx (by omega))).symm
    · rw [if_neg hb] at hmem
      simp at hmem
  · rw [if_neg hm] at hmem
    simp at hmem

theorem applyEraser_data (x y : ℚ) (ctx orig : Buffer) (mask : List ℕ) (b : ℕ)
    (n : ℕ) :
    (applyEraser x y ctx orig mask b).data n
      = if n ∈ (eraserWrites x y ctx orig mask b).map Prod.fst
        then orig.data (reindexTo orig ctx.width n) else ctx.data n := by
  exact foldWrite_eval (fun m => orig.data (reindexTo orig ctx.width m))
    (eraserWrites x y ctx orig mask b) ctx.data
    (eraserWrites_value x y ctx orig mask b) n

theorem mem_eraserWrites_fst (x y : ℚ) (ctx orig : Buffer) (mask : List ℕ)
    (b : ℕ) (i j : ℤ) (c : ℕ)
    (hi₁ : -((b / 2 : ℕ) : ℤ) ≤ i) (hi₂ : i ≤ ((b / 2 : ℕ) : ℤ))
    (hj₁ : -((b / 2 : ℕ) : ℤ) ≤ j) (hj₂ : j ≤ ((b / 2 : ℕ) : ℤ))
    (hm : maskCell mask ((b / 2 : ℕ) : ℤ) i j ≠ 0)
    (hx₁ : 0 ≤ jround (x + j)) (hx₂ : jround (x + j) < ctx.width)
    (hy₁ : 0 ≤ jround (y + i)) (hy₂ : jround (y + i) < ctx.height)
    (hc : c < 3) :
    ((jround (y + i)).toNat * ctx.width + (jround (x + j)).toNat) * 4 + c
      ∈ (eraserWrites x y ctx orig mask b).map Prod.fst := by
  set pixelIndex := ((jround (y + i)).toNat * ctx.width + (jround (x + j)).toNat) * 4
    with hpi
  have hinner : ∀ p ∈ [(pixelIndex,
        (getPixelData orig (jround (x + j)).toNat (jround (y + i)).toNat).r),
      (pixelIndex + 1,
        (getPixelData orig (jround (x + j)).toNat (jround (y + i)).toNat).g),
      (pixelIndex + 2,
        (getPixelData orig (jround (x + j)).toNat (jround (y + i)).toNat).b)],
      p ∈ eraserWrites x y ctx orig mask b := by
    intro p hp
    unfold eraserWrites
    simp only [List.mem_flatMap]
    refine ⟨i, (mem_offsetRange_iff _ i).mpr ⟨hi₁, hi₂⟩,
      j, (mem_offsetRange_iff _ j).mpr ⟨hj₁, hj₂⟩, ?_⟩
    rw [if_pos hm, if_pos ⟨hx₁, hx₂, hy₁, hy₂⟩]
    exact hp
  rcases (by omega : c = 0 ∨ c = 1 ∨ c = 2) with rfl | rfl | rfl
  · rw [Nat.add_zero]
    exact List.mem_map.mpr ⟨(pixelIndex,
      (getPixelData orig (jround (x + j)).toNat (jround (y + i)).toNat).r),
      hinner _ (by simp), rfl⟩
  · exact List.mem_map.mpr ⟨(pixelIndex + 1,
      (getPixelData orig (jround (x + j)).toNat (jround (y + i)).toNat).g),
      hinner _ (by simp), rfl⟩
  · exact List.mem_map.mpr ⟨(pixelIndex + 2,
      (getPixelData orig (jround (x + j)).toNat (jround (y + i)).toNat).b),
      hinner _ (by simp), rfl⟩

/-- C9: applying the eraser twice at the same point with the same brush size
and mask yields exactly the same working-buffer contents as applying it
once, and for every in-bounds pixel under a mask cell with value 1 the
R, G, B channels equal the original buffer's values at that coordinate
after either one or two applications. -/
theorem applyEraser_idempotent (x y : ℚ) (ctx orig : Buffer) (mask : List ℕ)
    (brushSize : ℕ) (i j : ℤ) (c : ℕ)
    (hi₁ : -((brushSize / 2 : ℕ) : ℤ) ≤ i) (hi₂ : i ≤ ((brushSize / 2 : ℕ) : ℤ))
    (hj₁ : -((brushSize / 2 : ℕ) : ℤ) ≤ j) (hj₂ : j ≤ ((brushSize / 2 : ℕ) : ℤ))
    (hm : maskCell mask ((brushSize / 2 : ℕ) : ℤ) i j = 1)
    (hx₁ : 0 ≤ jround (x + j)) (hx₂ : jround (x + j) < ctx.width)
    (hy₁ : 0 ≤ jround (y + i)) (hy₂ : jround (y + i) < ctx.height)
    (hc : c < 3) :
    applyEraser x y (applyEraser x y ctx orig mask brushSize) orig mask brushSize
      = applyEraser x y ctx orig mask brushSize ∧
    ((applyEraser x y ctx orig mask brushSize).data
        (((jround (y + i)).toNat * ctx.width + (jround (x + j)).toNat) * 4 + c)
      = orig.data
        (((jround (y + i)).toNat * orig.width + (jround (x + j)).toNat) * 4 + c) ∧
    (applyEraser x y (applyEraser x y ctx orig mask brushSize) orig mask
        brushSize).data
        (((jround (y + i)).toNat * ctx.width + (jround (x + j)).toNat) * 4 + c)
      = orig.data
        (((jround (y + i)).toNat * orig.width + (jround (x + j)).toNat) * 4 + c)) := by
  have hsame : eraserWrites x y (applyEraser x y ctx orig mask brushSize) orig mask
      brushSize = eraserWrites x y ctx orig mask brushSize := rfl
  have he2data : ∀ n, (applyEraser x y (applyEraser x y ctx orig mask brushSize)
      orig mask brushSize).data n
      = if n ∈ (eraserWrites x y ctx orig mask brushSize).map Prod.fst
        then orig.data (reindexTo orig ctx.width n)
        else (applyEraser x y ctx orig mask brushSize).data n := by
    intro n
    have := applyEraser_data x y (applyEraser x y ctx orig mask brushSize) orig mask
      brushSize n
    rwa [hsame] at this
  have hpoint : ∀ n, (applyEraser x y (applyEraser x y ctx orig mask brushSize)
      orig mask brushSize).data n = (applyEraser x y ctx orig mask brushSize).data n := by
    intro n
    rw [he2data n, applyEraser_data x y ctx orig mask brushSize n]
    by_cases hmem : n ∈ (eraserWrites x y ctx orig mask brushSize).map Prod.fst
    · simp [hmem]
    · simp [hmem]
  have hmem := mem_eraserWrites_fst x y ctx orig mask brushSize i j c hi₁ hi₂ hj₁
    hj₂ (by rw [hm]; exact one_ne_zero) hx₁ hx₂ hy₁ hy₂ hc
  have hpx : (jround (x + j)).toNat < ctx.width := by omega
  have h1 : (applyEraser x y ctx orig mask brushSize).data
      (((jround (y + i)).toNat * ctx.width + (jround (x + j)).toNat) * 4 + c)
      = orig.data
        (((jround (y + i)).toNat * orig.width + (jround (x + j)).toNat) * 4 + c) := by
    rw [applyEraser_data, if_pos hmem,
      reindexTo_encode orig ctx.width _ _ c hpx (by omega)]
  exact ⟨Buffer.ext rfl rfl (funext hpoint), h1, by rw [hpoint]; exact h1⟩

theorem magicWrites_value (x y : ℚ) (orig cur : Buffer) (bs : ℕ) (mask : List ℕ)
    (props : List (ℤ × ℤ)) :
    ∀ p ∈ magicWrites x y orig cur bs mask props,
      p.2 = (fun n => blendValue (n % 4) (sortedColors x y orig cur props)) p.1 := by
  intro p hp
  unfold magicWrites at hp
  simp only [List.mem_flatMap] at hp
  obtain ⟨i, _, j, _, hmem⟩ := hp
  by_cases hm : maskCell mask ((bs / 2 : ℕ) : ℤ) i j = 0
  · rw [if_pos hm] at hmem
    simp at hmem
  · rw [if_neg hm] at hmem
    by_cases hb : 0 ≤ jround (x + j) ∧ jround (x + j) < cur.width
        ∧ 0 ≤ jround (y + i) ∧ jround (y + i) < cur.height
    · rw [if_pos hb] at hmem
      by_cases htw : 0 < totalWeight (sortedColors x y orig cur props)
      · rw [if_pos htw] at hmem
        simp only [List.mem_cons, List.not_mem_nil, or_false] at hmem
        rcases hmem with rfl | rfl | rfl
        · simp only
          congr 1
          omega
        · simp only
          congr 1
          omega
        · simp only
          congr 1
          omega
      · rw [if_neg htw] at hmem
        simp at hmem
    · rw [if_neg hb] at hmem
      simp at hmem

theorem applyMagicBrush_data (x y : ℚ) (orig cur : Buffer) (bs : ℕ)
    (mask : Option (List ℕ)) (props : List (ℤ × ℤ)) (n : ℕ) :
    (applyMagicBrush x y orig cur bs mask props).data n
      = if n ∈ (magicWrites x y orig cur bs
            (mask.getD (generateBrushMask bs)) props).map Prod.fst
        then blendValue (n % 4) (sortedColors x y orig cur props)
        else cur.data n := by
  exact foldWrite_eval (fun m => blendValue (m % 4) (sortedColors x y orig cur props))
    (magicWrites x y orig cur bs (mask.getD (generateBrushMask bs)) props) cur.data
    (magicWrites_value x y orig cur bs (mask.getD (generateBrushMask bs)) props) n

theorem mem_magicWrites_fst (x y : ℚ) (orig cur : Buffer) (bs : ℕ) (mask : List ℕ)
    (props : List (ℤ × ℤ)) (i j : ℤ) (c : ℕ)
    (hi₁ : -((bs / 2 : ℕ) : ℤ) ≤ i) (hi₂ : i ≤ ((bs / 2 : ℕ) : ℤ))
    (hj₁ : -((bs / 2 : ℕ) : ℤ) ≤ j) (hj₂ : j ≤ ((bs / 2 : ℕ) : ℤ))
    (hm : maskCell mask ((bs / 2 : ℕ) : ℤ) i j ≠ 0)
    (hx₁ : 0 ≤ jround (x + j)) (hx₂ : jround (x + j) < cur.width)
    (hy₁ : 0 ≤ jround (y + i)) (hy₂ : jround (y + i) < cur.height)
    (htw : 0 < totalWeight (sortedColors x y orig cur props))
    (hc : c < 3) :
    ((jround (y + i)).toNat * cur.width + (jround (x + j)).toNat) * 4 + c
      ∈ (magicWrites x y orig cur bs mask props).map Prod.fst := by
  set pixelIndex := ((jround (y + i)).toNat * cur.width + (jround (x + j)).toNat) * 4
    with hpi
  have hinner : ∀ p ∈ [(pixelIndex, blendValue 0 (sortedColors x y orig cur props)),
      (pixelIndex + 1, blendValue 1 (sortedColors x y orig cur props)),
      (pixelIndex + 2, blendValue 2 (sortedColors x y orig cur props))],
      p ∈ magicWrites x y orig cur bs mask props := by
    intro p hp
    unfold magicWrites
    simp only [List.mem_flatMap]
    refine ⟨i, (mem_offsetRange_iff _ i).mpr ⟨hi₁, hi₂⟩,
      j, (mem_offsetRange_iff _ j).mpr ⟨hj₁, hj₂⟩, ?_⟩
    rw [if_neg hm, if_pos ⟨hx₁, hx₂, hy₁, hy₂⟩, if_pos htw]
    exact hp
  rcases (by omega : c = 0 ∨ c = 1 ∨ c = 2) with rfl | rfl | rfl
  · rw [Nat.add_zero]
    exact List.mem_map.mpr ⟨(pixelIndex, blendValue 0 (sortedColors x y orig cur props)),
      hinner _ (by simp), rfl⟩
  · exact List.mem_map.mpr ⟨(pixelIndex + 1, blendValue 1 (sortedColors x y orig cur props)),
      hinner _ (by simp), rfl⟩
  · exact List.mem_map.mpr ⟨(pixelIndex + 2, blendValue 2 (sortedColors x y orig cur props)),
      hinner _ (by simp), rfl⟩

theorem applyMagicBrush_painted (x y : ℚ) (orig cur : Buffer) (bs : ℕ)
    (mask : Option (List ℕ)) (props : List (ℤ × ℤ)) (i j : ℤ) (c : ℕ)
    (hi₁ : -((bs / 2 : ℕ) : ℤ) ≤ i) (hi₂ : i ≤ ((bs / 2 : ℕ) : ℤ))
    (hj₁ : -((bs / 2 : ℕ) : ℤ) ≤ j) (hj₂ : j ≤ ((bs / 2 : ℕ) : ℤ))
    (hm : maskCell (mask.getD (generateBrushMask bs)) ((bs / 2 : ℕ) : ℤ) i j ≠ 0)
    (hx₁ : 0 ≤ jround (x + j)) (hx₂ : jround (x + j) < cur.width)
    (hy₁ : 0 ≤ jround (y + i)) (hy₂ : jround (y + i) < cur.height)
    (htw : 0 < totalWeight (sortedColors x y orig cur props))
    (hc : c < 3) :
    (applyMagicBrush x y orig cur bs mask props).data
        (((jround (y + i)).toNat * cur.width + (jround (x + j)).toNat) * 4 + c)
      = blendValue c (sortedColors x y orig cur props) := by
  rw [applyMagicBrush_data, if_pos (mem_magicWrites_fst x y orig cur bs _ props i j c
    hi₁ hi₂ hj₁ hj₂ hm hx₁ hx₂ hy₁ hy₂ htw hc)]
  congr 1
  omega

theorem filterMap_ite_eq_filter_map {α β : Type} (p : α → Prop) [DecidablePred p]
    (f : α → β) (l : List α) :
    (l.filterMap fun a => if p a then some (f a) else none)
      = (l.filter fun a => decide (p a)).map f := by
  induction l with
  | nil => simp
  | cons a l ih =>
    by_cases h : p a
    · simp [h, ih]
    · simp [h, ih]

theorem sortedColors_sorted (x y : ℚ) (orig cur : Buffer)
    (props : List (ℤ × ℤ)) :
    List.Pairwise (fun a b : ColorSample => a.similarity ≤ b.similarity)
      (sortedColors x y orig cur props) := by
  have hs := @List.sorted_mergeSort ColorSample
    (fun a b : ColorSample => decide (a.similarity ≤ b.similarity))
    (fun a b c hab hbc => by
      simp only [decide_eq_true_eq] at hab hbc ⊢
      omega)
    (fun a b => by
      simp only [Bool.or_eq_true, decide_eq_true_eq]
      omega)
    (candidateSamples x y orig cur props)
  have hp : List.Pairwise (fun a b : ColorSample => a.similarity ≤ b.similarity)
      ((candidateSamples x y orig cur props).mergeSort
        fun a b : ColorSample => a.similarity ≤ b.similarity) := by
    refine hs.imp ?_
    intro a b h
    simpa using h
  exact hp.sublist (List.take_sublist 10 _)

theorem sortedColors_length (x y : ℚ) (orig cur : Buffer)
    (props : List (ℤ × ℤ)) :
    (sortedColors x y orig cur props).length
      = min 10 (candidateSamples x y orig cur props).length := by
  unfold sortedColors
  rw [List.length_take,
    (List.mergeSort_perm (candidateSamples x y orig cur props) _).length_eq]

theorem totalWeight_pos (l : List ColorSample) (h : l ≠ []) : 0 < totalWeight l := by
  cases l with
  | nil => exact absurd rfl h
  | cons s t =>
    unfold totalWeight sampleWeight
    simp only [List.map_cons, List.sum_cons]
    have h1 : (0 : ℚ) < 1 / (s.similarity + 1) := by positivity
    have h2 : (0 : ℚ) ≤ (t.map fun u : ColorSample => (1 : ℚ) / (u.similarity + 1)).sum := by
      apply List.sum_nonneg
      intro q hq
      obtain ⟨u, _, rfl⟩ := List.mem_map.mp hq
      positivity
    linarith

/-- C1: in the magic-brush point operator every recorded candidate sample
takes its r, g, b from the working buffer at the sample point while its
similarity is the sum of absolute R, G, B differences between the original
buffer at the sample point and the original buffer at the rounded center;
the samples are sorted ascending by similarity and only the 10 most
similar are kept; and each kept sample contributes to the painted blend
with weight `1/(similarity+1)`. -/
theorem applyMagicBrush_sampling_spec (x y : ℚ) (orig cur : Buffer)
    (props : List (ℤ × ℤ)) (bs : ℕ) (mask : Option (List ℕ)) (i j : ℤ) (c : ℕ)
    (hdim : orig.width = cur.width)
    (hcx : 0 ≤ jround x) (hcy : 0 ≤ jround y)
    (hi₁ : -((bs / 2 : ℕ) : ℤ) ≤ i) (hi₂ : i ≤ ((bs / 2 : ℕ) : ℤ))
    (hj₁ : -((bs / 2 : ℕ) : ℤ) ≤ j) (hj₂ : j ≤ ((bs / 2 : ℕ) : ℤ))
    (hm : maskCell (mask.getD (generateBrushMask bs)) ((bs / 2 : ℕ) : ℤ) i j ≠ 0)
    (hx₁ : 0 ≤ jround (x + j)) (hx₂ : jround (x + j) < cur.width)
    (hy₁ : 0 ≤ jround (y + i)) (hy₂ : jround (y + i) < cur.height)
    (htw : 0 < totalWeight (sortedColors x y orig cur props))
    (hc : c < 3) :
    candidateSamples x y orig cur props
      = (props.filter fun q : ℤ × ℤ =>
          decide (0 ≤ q.1 ∧ q.1 < cur.width ∧ 0 ≤ q.2 ∧ q.2 < cur.height)).map
          (fun q : ℤ × ℤ =>
            { r := (getPixelData cur q.1.toNat q.2.toNat).r
              g := (getPixelData cur q.1.toNat q.2.toNat).g
              b := (getPixelData cur q.1.toNat q.2.toNat).b
              similarity :=
                (((getPixelData orig q.1.toNat q.2.toNat).r : ℤ)
                  - ((getPixelData orig (jround x).toNat (jround y).toNat).r : ℤ)).natAbs
                + (((getPixelData orig q.1.toNat q.2.toNat).g : ℤ)
                  - ((getPixelData orig (jround x).toNat (jround y).toNat).g : ℤ)).natAbs
                + (((getPixelData orig q.1.toNat q.2.toNat).b : ℤ)
                  - ((getPixelData orig (jround x).toNat (jround y).toNat).b : ℤ)).natAbs }) ∧
    List.Pairwise (fun a b : ColorSample => a.similarity ≤ b.similarity)
      (sortedColors x y orig cur props) ∧
    (sortedColors x y orig cur props).length
      = min 10 (candidateSamples x y orig cur props).length ∧
    (∃ rest : List ColorSample,
      (candidateSamples x y orig cur props).Perm
        (sortedColors x y orig cur props ++ rest) ∧
      ∀ a ∈ sortedColors x y orig cur props, ∀ b ∈ rest,
        a.similarity ≤ b.similarity) ∧
    (applyMagicBrush x y orig cur bs mask props).data
        (((jround (y + i)).toNat * cur.width + (jround (x + j)).toNat) * 4 + c)
      = clamp255 (jround
          (((sortedColors x y orig cur props).map fun s : ColorSample =>
              ((if c = 0 then s.r else if c = 1 then s.g else s.b : ℕ) : ℚ)
                * (1 / (s.similarity + 1))).sum
            / ((sortedColors x y orig cur props).map fun s : ColorSample =>
              (1 : ℚ) / (s.similarity + 1)).sum)) := by
  refine ⟨?_, sortedColors_sorted x y orig cur props,
    sortedColors_length x y orig cur props, ?_, ?_⟩
  · unfold candidateSamples
    rw [filterMap_ite_eq_filter_map
      (p := fun q : ℤ × ℤ => 0 ≤ q.1 ∧ q.1 < cur.width ∧ 0 ≤ q.2 ∧ q.2 < cur.height)]
    congr 1
    funext q
    have hcenter : ((jround y * (cur.width : ℤ) + jround x) * 4).toNat
        = ((jround y).toNat * orig.width + (jround x).toNat) * 4 := by
      have h1 : (jround y * (cur.width : ℤ) + jround x) * 4
          = ((((jround y).toNat * orig.width + (jround x).toNat) * 4 : ℕ) : ℤ) := by
        push_cast [Int.toNat_of_nonneg hcx, Int.toNat_of_nonneg hcy, hdim]
        ring
      rw [h1, Int.toNat_natCast]
    simp only [magicCenterColor, getPixelData, hdim, hcenter]
  · refine ⟨((candidateSamples x y orig cur props).mergeSort
      fun a b : ColorSample => a.similarity ≤ b.similarity).drop 10, ?_, ?_⟩
    · have hperm := (List.mergeSort_perm (candidateSamples x y orig cur props)
        fun a b : ColorSample => a.similarity ≤ b.similarity).symm
      unfold sortedColors
      rwa [List.take_append_drop]
    · intro a ha b hb
      have hs := @List.sorted_mergeSort ColorSample
        (fun a b : ColorSample => decide (a.similarity ≤ b.similarity))
        (fun a b c hab hbc => by
          simp only [decide_eq_true_eq] at hab hbc ⊢
          omega)
        (fun a b => by
          simp only [Bool.or_eq_true, decide_eq_true_eq]
          omega)
        (candidateSamples x y orig cur props)
      have hp : List.Pairwise (fun a b : ColorSample => a.similarity ≤ b.similarity)
          ((candidateSamples x y orig cur props).mergeSort
            fun a b : ColorSample => a.similarity ≤ b.similarity) := by
        refine hs.imp ?_
        intro a b h
        simpa using h
      rw [← List.take_append_drop 10 ((candidateSamples x y orig cur props).mergeSort
        fun a b : ColorSample => a.similarity ≤ b.similarity)] at hp
      exact (List.pairwise_append.mp hp).2.2 a ha b hb
  · rw [applyMagicBrush_painted x y orig cur bs mask props i j c hi₁ hi₂ hj₁ hj₂ hm
      hx₁ hx₂ hy₁ hy₂ htw hc]
    unfold blendValue weightedR weightedG weightedB totalWeight sampleWeight
    rcases (by omega : c = 0 ∨ c = 1 ∨ c = 2) with rfl | rfl | rfl
    · simp
    · simp
    · simp

theorem jround_add_int (q : ℚ) (z : ℤ) : jround (q + z) = jround q + z := by
  unfold jround
  rw [add_right_comm, Int.floor_add_int]

theorem jround_zero : jround 0 = 0 := by
  norm_num [jround]

theorem jround_one : jround 1 = 1 := by
  norm_num [jround]

/-- Witness for `applyEraser_idempotent`: a 1-pixel brush at the origin of a
2×2 canvas. -/
theorem applyEraser_idempotent_witness :
    maskCell [1] ((1 / 2 : ℕ) : ℤ) 0 0 = 1 ∧
    applyEraser 0 0 (applyEraser 0 0 bufA bufB [1] 1) bufB [1] 1
      = applyEraser 0 0 bufA bufB [1] 1 :=
  ⟨by decide,
    (applyEraser_idempotent 0 0 bufA bufB [1] 1 0 0 0 (by decide) (by decide)
      (by decide) (by decide) (by decide)
      (by simp [jround_add_int, jround_zero])
      (by simp [jround_add_int, jround_zero, bufA])
      (by simp [jround_add_int, jround_zero])
      (by simp [jround_add_int, jround_zero, bufA])
      (by decide)).1⟩

/-- Witness for `applyMagicBrush_sampling_spec`: one in-bounds proposal on a
2×2 canvas with a 1-pixel brush. -/
theorem applyMagicBrush_sampling_spec_witness :
    bufB.width = bufA.width ∧
    (sortedColors 0 0 bufB bufA [(1, 1)]).length
      = min 10 (candidateSamples 0 0 bufB bufA [(1, 1)]).length :=
  ⟨rfl,
    (applyMagicBrush_sampling_spec 0 0 bufB bufA [(1, 1)] 1 (some [1]) 0 0 0 rfl
      (by simp [jround_zero]) (by simp [jround_zero])
      (by decide) (by decide) (by decide) (by decide) (by decide)
      (by simp [jround_add_int, jround_zero])
      (by simp [jround_add_int, jround_zero, bufA])
      (by simp [jround_add_int, jround_zero])
      (by simp [jround_add_int, jround_zero, bufA])
      (totalWeight_pos _ (List.ne_nil_of_length_pos (by
        rw [sortedColors_length]
        decide)))
      (by decide)).2.2.1⟩

/-- C10: within a single invocation of the magic-brush point operator, every
pixel it paints receives the identical rounded R, G, B triple — the
weighted average over the kept samples does not depend on the target mask
cell. -/
theorem applyMagicBrush_uniform_color (x y : ℚ) (orig cur : Buffer) (bs : ℕ)
    (mask : Option (List ℕ)) (props : List (ℤ × ℤ)) (i j i' j' : ℤ) (c : ℕ)
    (hi₁ : -((bs / 2 : ℕ) : ℤ) ≤ i) (hi₂ : i ≤ ((bs / 2 : ℕ) : ℤ))
    (hj₁ : -((bs / 2 : ℕ) : ℤ) ≤ j) (hj₂ : j ≤ ((bs / 2 : ℕ) : ℤ))
    (hm : maskCell (mask.getD (generateBrushMask bs)) ((bs / 2 : ℕ) : ℤ) i j ≠ 0)
    (hx₁ : 0 ≤ jround (x + j)) (hx₂ : jround (x + j) < cur.width)
    (hy₁ : 0 ≤ jround (y + i)) (hy₂ : jround (y + i) < cur.height)
    (hi₁' : -((bs / 2 : ℕ) : ℤ) ≤ i') (hi₂' : i' ≤ ((bs / 2 : ℕ) : ℤ))
    (hj₁' : -((bs / 2 : ℕ) : ℤ) ≤ j') (hj₂' : j' ≤ ((bs / 2 : ℕ) : ℤ))
    (hm' : maskCell (mask.getD (generateBrushMask bs)) ((bs / 2 : ℕ) : ℤ) i' j' ≠ 0)
    (hx₁' : 0 ≤ jround (x + j')) (hx₂' : jround (x + j') < cur.width)
    (hy₁' : 0 ≤ jround (y + i')) (hy₂' : jround (y + i') < cur.height)
    (htw : 0 < totalWeight (sortedColors x y orig cur props))
    (hc : c < 3) :
    (applyMagicBrush x y orig cur bs mask props).data
        (((jround (y + i)).toNat * cur.width + (jround (x + j)).toNat) * 4 + c)
      = (applyMagicBrush x y orig cur bs mask props).data
        (((jround (y + i')).toNat * cur.width + (jround (x + j')).toNat) * 4 + c) := by
  rw [applyMagicBrush_painted x y orig cur bs mask props i j c hi₁ hi₂ hj₁ hj₂ hm
      hx₁ hx₂ hy₁ hy₂ htw hc,
    applyMagicBrush_painted x y orig cur bs mask props i' j' c hi₁' hi₂' hj₁' hj₂' hm'
      hx₁' hx₂' hy₁' hy₂' htw hc]

/-- Witness for `applyMagicBrush_uniform_color`: two distinct painted pixels
of a radius-1 brush at `(1, 1)` on a 2×2 canvas. -/
theorem applyMagicBrush_uniform_color_witness :
    maskCell ((none : Option (List ℕ)).getD (generateBrushMask 2))
        ((2 / 2 : ℕ) : ℤ) 0 (-1) ≠ 0 ∧
    (applyMagicBrush 1 1 bufB bufA 2 none [(0, 0)]).data
        (((jround ((1 : ℚ) + ((0 : ℤ) : ℚ))).toNat * bufA.width
          + (jround ((1 : ℚ) + ((0 : ℤ) : ℚ))).toNat) * 4 + 0)
      = (applyMagicBrush 1 1 bufB bufA 2 none [(0, 0)]).data
        (((jround ((1 : ℚ) + ((0 : ℤ) : ℚ))).toNat * bufA.width
          + (jround ((1 : ℚ) + ((-1 : ℤ) : ℚ))).toNat) * 4 + 0) :=
  ⟨by decide,
    applyMagicBrush_uniform_color 1 1 bufB bufA 2 none [(0, 0)] 0 0 0 (-1) 0
      (by decide) (by decide) (by decide) (by decide) (by decide)
      (by simp [jround_add_int, jround_one, jround_zero])
      (by simp [jround_add_int, jround_one, jround_zero, bufA])
      (by simp [jround_add_int, jround_one, jround_zero])
      (by simp [jround_add_int, jround_one, jround_zero, bufA])
      (by decide) (by decide) (by decide) (by decide) (by decide)
      (by simp [jround_add_int, jround_one, jround_zero])
      (by simp [jround_add_int, jround_one, jround_zero, bufA])
      (by simp [jround_add_int, jround_one, jround_zero])
      (by simp [jround_add_int, jround_one, jround_zero, bufA])
      (totalWeight_pos _ (List.ne_nil_of_length_pos (by
        rw [sortedColors_length]
        decide)))
      (by decide)⟩

theorem floor_div_sub_one (a step : ℚ) (hstep : step ≠ 0) :
    ⌊(a - step) / step⌋ = ⌊a / step⌋ - 1 := by
  have h1 : (a - step) / step = a / step - 1 := by
    rw [sub_div, div_self hstep]
  rw [h1, show (1 : ℚ) = ((1 : ℤ) : ℚ) from by norm_num, Int.floor_sub_int]

theorem gridAxisAux_congr (step : ℚ) (hstep : 0 < step) :
    ∀ (f₁ f₂ : ℕ) (lo hi : ℚ),
      (⌊(hi - lo) / step⌋ + 1).toNat ≤ f₁ → (⌊(hi - lo) / step⌋ + 1).toNat ≤ f₂ →
      gridAxisAux f₁ lo hi step = gridAxisAux f₂ lo hi step := by
  intro f₁
  induction f₁ with
  | zero =>
    intro f₂ lo hi h1 h2
    have hneg : ¬ lo ≤ hi := by
      intro hle
      have : 0 ≤ (hi - lo) / step := div_nonneg (by linarith) hstep.le
      have : 0 ≤ ⌊(hi - lo) / step⌋ := Int.floor_nonneg.mpr this
      omega
    cases f₂ with
    | zero => rfl
    | succ m => simp [gridAxisAux, hneg]
  | succ k ih =>
    intro f₂ lo hi h1 h2
    by_cases hle : lo ≤ hi
    · have h0 : 0 ≤ ⌊(hi - lo) / step⌋ :=
        Int.floor_nonneg.mpr (div_nonneg (by linarith) hstep.le)
      cases f₂ with
      | zero => omega
      | succ m =>
        simp only [gridAxisAux, if_pos hle]
        have hfl : ⌊(hi - (lo + step)) / step⌋ = ⌊(hi - lo) / step⌋ - 1 := by
          have h2' : hi - (lo + step) = (hi - lo) - step := by ring
          rw [h2', floor_div_sub_one _ _ (ne_of_gt hstep)]
        have hk : (⌊(hi - (lo + step)) / step⌋ + 1).toNat ≤ k := by omega
        have hm : (⌊(hi - (lo + step)) / step⌋ + 1).toNat ≤ m := by omega
        rw [ih m (lo + step) hi hk hm]
    · cases f₂ with
      | zero => simp [gridAxisAux, hle]
      | succ m => simp [gridAxisAux, hle]

theorem gridAxis_nil (lo hi step : ℚ) (h : ¬ lo ≤ hi) : gridAxis lo hi step = [] := by
  unfold gridAxis
  cases hf : (⌊(hi - lo) / step⌋ + 1).toNat with
  | zero => rfl
  | succ m => simp [gridAxisAux, h]

theorem gridAxis_cons (lo hi step : ℚ) (h : lo ≤ hi) (hstep : 0 < step) :
    gridAxis lo hi step = lo :: gridAxis (lo + step) hi step := by
  unfold gridAxis
  have h0 : 0 ≤ ⌊(hi - lo) / step⌋ :=
    Int.floor_nonneg.mpr (div_nonneg (by linarith) hstep.le)
  have hfl : ⌊(hi - (lo + step)) / step⌋ = ⌊(hi - lo) / step⌋ - 1 := by
    have h2' : hi - (lo + step) = (hi - lo) - step := by ring
    rw [h2', floor_div_sub_one _ _ (ne_of_gt hstep)]
  have hfuel : (⌊(hi - lo) / step⌋ + 1).toNat
      = (⌊(hi - (lo + step)) / step⌋ + 1).toNat + 1 := by omega
  rw [hfuel]
  simp only [gridAxisAux, if_pos h]

theorem gridAxis_length : ∀ (n : ℕ) (lo hi step : ℚ), 0 < step → lo ≤ hi →
    ⌊(hi - lo) / step⌋.toNat = n → (gridAxis lo hi step).length = n + 1 := by
  intro n
  induction n using Nat.strong_induction_on with
  | _ n ih =>
    intro lo hi step hstep h hn
    by_cases h2 : lo + step ≤ hi
    · have hge1 : 1 ≤ ⌊(hi - lo) / step⌋ := by
        apply Int.le_floor.mpr
        push_cast
        rw [le_div_iff₀ hstep]
        linarith
      have hfl : ⌊(hi - (lo + step)) / step⌋ = ⌊(hi - lo) / step⌋ - 1 := by
        have h2' : hi - (lo + step) = (hi - lo) - step := by ring
        rw [h2', floor_div_sub_one _ _ (ne_of_gt hstep)]
      have hn' : ⌊(hi - (lo + step)) / step⌋.toNat = n - 1 := by omega
      have hlt : n - 1 < n := by omega
      rw [gridAxis_cons lo hi step h hstep, List.length_cons,
        ih (n - 1) hlt (lo + step) hi step hstep h2 hn']
      omega
    · have h1 : (hi - lo) / step < 1 := by
        rw [div_lt_one hstep]
        linarith
      have h2' : 0 ≤ (hi - lo) / step := div_nonneg (by linarith) hstep.le
      have h0 : ⌊(hi - lo) / step⌋ = 0 := by
        have ha : 0 ≤ ⌊(hi - lo) / step⌋ := Int.floor_nonneg.mpr h2'
        have hb : ⌊(hi - lo) / step⌋ < 1 := by
          apply Int.floor_lt.mpr
          push_cast
          exact h1
        omega
      rw [gridAxis_cons lo hi step h hstep,
        gridAxis_nil (lo + step) hi step (by intro hc; exact h2 hc)]
      simp only [List.length_cons, List.length_nil]
      omega

theorem mem_intRange_iff (lo hi v : ℤ) : v ∈ intRange lo hi ↔ lo ≤ v ∧ v ≤ hi := by
  unfold intRange
  simp only [List.mem_map, List.mem_range]
  constructor
  · rintro ⟨t, ht, rfl⟩
    omega
  · intro ⟨h1, h2⟩
    exact ⟨(v - lo).toNat, by omega, by omega⟩

theorem processChunks_noFault (orig : Buffer) (bs : ℕ) (mask : List ℕ)
    (sampler : ℕ → List (ℤ × ℤ)) (fault : ℕ → Bool) (points : List (ℚ × ℚ))
    (T : ℕ) :
    ∀ (remaining k : ℕ) (buf : Buffer), (∀ t, t < remaining → fault (k + t) = false) →
      processChunks orig bs mask sampler fault points T remaining k buf
        = ((List.range' k remaining).foldl
            (fun b t => applyChunk orig bs mask sampler points t b) buf,
           (List.range' k remaining).map (chunkProgress T),
           (List.range' k remaining).flatMap
            (fun t => (chunkSlice points t).map Prod.snd),
           false) := by
  intro remaining
  induction remaining with
  | zero =>
    intro k buf _
    simp [processChunks]
  | succ r ih =>
    intro k buf h
    have hf : fault k = false := by simpa using h 0 (by omega)
    have hrest := ih (k + 1) (applyChunk orig bs mask sampler points k buf)
      (fun t ht => by
        have := h (t + 1) (by omega)
        have harr : k + (t + 1) = k + 1 + t := by omega
        rwa [harr] at this)
    simp only [processChunks, hf, Bool.false_eq_true, if_false, hrest,
      List.range'_succ, List.foldl_cons, List.map_cons, List.flatMap_cons]

theorem processChunks_fault (orig : Buffer) (bs : ℕ) (mask : List ℕ)
    (sampler : ℕ → List (ℤ × ℤ)) (fault : ℕ → Bool) (points : List (ℚ × ℚ))
    (T : ℕ) :
    ∀ (m remaining k : ℕ) (buf : Buffer), m < remaining →
      (∀ t, t < m → fault (k + t) = false) → fault (k + m) = true →
      processChunks orig bs mask sampler fault points T remaining k buf
        = ((List.range' k m).foldl
            (fun b t => applyChunk orig bs mask sampler points t b) buf,
           (List.range' k m).map (chunkProgress T),
           (List.range' k m).flatMap
            (fun t => (chunkSlice points t).map Prod.snd),
           true) := by
  intro m
  induction m with
  | zero =>
    intro remaining k buf hlt hprev hf
    cases remaining with
    | zero => omega
    | succ r =>
      have hfk : fault k = true := by simpa using hf
      simp [processChunks, hfk]
  | succ s ih =>
    intro remaining k buf hlt hprev hf
    cases remaining with
    | zero => omega
    | succ r =>
      have hfk : fault k = false := by simpa using hprev 0 (by omega)
      have hrest := ih r (k + 1) (applyChunk orig bs mask sampler points k buf)
        (by omega)
        (fun t ht => by
          have := hprev (t + 1) (by omega)
          have harr : k + (t + 1) = k + 1 + t := by omega
          rwa [harr] at this)
        (by
          have harr : k + (s + 1) = k + 1 + s := by omega
          rwa [harr] at hf)
      simp only [processChunks, hfk, Bool.false_eq_true, if_false, hrest,
        List.range'_succ, List.foldl_cons, List.map_cons, List.flatMap_cons]

theorem applyMagicBrushToArea_noFault (areaStart areaEnd : ℚ × ℚ) (ctx orig : Buffer)
    (tmp : Option Buffer) (bs : ℕ) (sampler : ℕ → List (ℤ × ℤ)) (fault : ℕ → Bool)
    (hfault : ∀ k, fault k = false) :
    applyMagicBrushToArea areaStart areaEnd ctx orig tmp bs sampler fault
      = { buffer := smoothStep (min areaStart.1 areaEnd.1) (min areaStart.2 areaEnd.2)
            (max areaStart.1 areaEnd.1) (max areaStart.2 areaEnd.2)
            (applyChunksUpTo orig bs (generateBrushMask bs) sampler
              (areaFillPointsOf areaStart areaEnd bs)
              (areaFillTotalChunks (areaFillPointsOf areaStart areaEnd bs).length)
              (tmp.getD ctx))
          progress := 0 :: (List.range
              (areaFillTotalChunks (areaFillPointsOf areaStart areaEnd bs).length)).map
            (chunkProgress (areaFillTotalChunks (areaFillPointsOf areaStart areaEnd bs).length))
          pointsApplied := (List.range
              (areaFillTotalChunks (areaFillPointsOf areaStart areaEnd bs).length)).flatMap
            (fun t => (chunkSlice (areaFillPointsOf areaStart areaEnd bs) t).map Prod.snd)
          completed := some ⟨min areaStart.1 areaEnd.1, min areaStart.2 areaEnd.2,
            max areaStart.1 areaEnd.1, max areaStart.2 areaEnd.2, "area-magic-brush"⟩
          errorPropagated := false } := by
  simp only [applyMagicBrushToArea]
  rw [processChunks_noFault orig bs (generateBrushMask bs) sampler fault
    (areaFillPoints (min areaStart.1 areaEnd.1) (min areaStart.2 areaEnd.2)
      (max areaStart.1 areaEnd.1) (max areaStart.2 areaEnd.2) (areaFillGridSize bs))
    (areaFillTotalChunks (areaFillPoints (min areaStart.1 areaEnd.1)
      (min areaStart.2 areaEnd.2) (max areaStart.1 areaEnd.1) (max areaStart.2 areaEnd.2)
      (areaFillGridSize bs)).length)
    (areaFillTotalChunks (areaFillPoints (min areaStart.1 areaEnd.1)
      (min areaStart.2 areaEnd.2) (max areaStart.1 areaEnd.1) (max areaStart.2 areaEnd.2)
      (areaFillGridSize bs)).length)
    0 (tmp.getD ctx) (fun t _ => hfault (0 + t))]
  simp only [Bool.false_eq_true, if_false, applyChunksUpTo, areaFillPointsOf,
    List.range_eq_range']

theorem applyMagicBrushToArea_fault (areaStart areaEnd : ℚ × ℚ) (ctx orig : Buffer)
    (tmp : Option Buffer) (bs : ℕ) (sampler : ℕ → List (ℤ × ℤ)) (fault : ℕ → Bool)
    (m : ℕ)
    (hm : m < areaFillTotalChunks (areaFillPointsOf areaStart areaEnd bs).length)
    (hprev : ∀ t, t < m → fault t = false) (hf : fault m = true) :
    applyMagicBrushToArea areaStart areaEnd ctx orig tmp bs sampler fault
      = { buffer := applyChunksUpTo orig bs (generateBrushMask bs) sampler
            (areaFillPointsOf areaStart areaEnd bs) m (tmp.getD ctx)
          progress := 0 :: (List.range m).map
            (chunkProgress (areaFillTotalChunks (areaFillPointsOf areaStart areaEnd bs).length))
            ++ [0]
          pointsApplied := (List.range m).flatMap
            (fun t => (chunkSlice (areaFillPointsOf areaStart areaEnd bs) t).map Prod.snd)
          completed := none
          errorPropagated := false } := by
  simp only [applyMagicBrushToArea]
  rw [processChunks_fault orig bs (generateBrushMask bs) sampler fault
    (areaFillPoints (min areaStart.1 areaEnd.1) (min areaStart.2 areaEnd.2)
      (max areaStart.1 areaEnd.1) (max areaStart.2 areaEnd.2) (areaFillGridSize bs))
    (areaFillTotalChunks (areaFillPoints (min areaStart.1 areaEnd.1)
      (min areaStart.2 areaEnd.2) (max areaStart.1 areaEnd.1) (max areaStart.2 areaEnd.2)
      (areaFillGridSize bs)).length)
    m
    (areaFillTotalChunks (areaFillPoints (min areaStart.1 areaEnd.1)
      (min areaStart.2 areaEnd.2) (max areaStart.1 areaEnd.1) (max areaStart.2 areaEnd.2)
      (areaFillGridSize bs)).length)
    0 (tmp.getD ctx) hm (fun t ht => by simpa using hprev t ht) (by simpa using hf)]
  simp only [if_true, applyChunksUpTo, areaFillPointsOf, List.range_eq_range']

theorem jround_nonneg (q : ℚ) (h : 0 ≤ q) : 0 ≤ jround q :=
  Int.floor_nonneg.mpr (by linarith)

theorem jround_mono {q q' : ℚ} (h : q ≤ q') : jround q ≤ jround q' :=
  Int.floor_le_floor (by linarith)

theorem jround_hundred : jround 100 = 100 := by
  norm_num [jround]

theorem chunkProgress_le_hundred (T k : ℕ) (hk : k < T) :
    chunkProgress T k = jround ((((k + 1 : ℕ) : ℚ) / (T : ℚ)) * 100) := by
  unfold chunkProgress
  apply min_eq_right
  have hT' : (0 : ℚ) < T := by
    have : 0 < T := by omega
    exact_mod_cast this
  have h1 : (((k + 1 : ℕ) : ℚ) / (T : ℚ)) * 100 ≤ 100 := by
    rw [div_mul_eq_mul_div, div_le_iff₀ hT']
    have hk' : ((k + 1 : ℕ) : ℚ) ≤ (T : ℚ) := by exact_mod_cast hk
    nlinarith
  calc jround ((((k + 1 : ℕ) : ℚ) / (T : ℚ)) * 100) ≤ jround 100 := jround_mono h1
    _ = 100 := jround_hundred

theorem chunkProgress_nonneg (T k : ℕ) : 0 ≤ chunkProgress T k := by
  unfold chunkProgress
  refine le_min (by norm_num) (jround_nonneg _ ?_)
  positivity

theorem chunkProgress_mono (T : ℕ) {k k' : ℕ} (h : k ≤ k') :
    chunkProgress T k ≤ chunkProgress T k' := by
  unfold chunkProgress
  refine min_le_min le_rfl (jround_mono ?_)
  by_cases hT : (T : ℚ) = 0
  · rw [hT, div_zero, div_zero]
  · have hT' : (0 : ℚ) < T := lt_of_le_of_ne (by positivity) (Ne.symm hT)
    have h' : ((k + 1 : ℕ) : ℚ) ≤ ((k' + 1 : ℕ) : ℚ) := by
      exact_mod_cast Nat.succ_le_succ h
    gcongr

theorem chunkProgress_last (T : ℕ) (hT : 0 < T) : chunkProgress T (T - 1) = 100 := by
  unfold chunkProgress
  have h1 : ((T - 1 + 1 : ℕ) : ℚ) = (T : ℚ) := by
    congr 1
    omega
  have hT' : (T : ℚ) ≠ 0 := by
    have : (0 : ℚ) < T := by exact_mod_cast hT
    linarith
  rw [h1, div_self hT', one_mul, jround_hundred]
  norm_num

theorem areaFillPoints_len (x1 y1 x2 y2 : ℚ) (g : ℕ) (hg : 0 < g)
    (hx : x1 ≤ x2) (hy : y1 ≤ y2) :
    (areaFillPoints x1 y1 x2 y2 g).length
      = (⌊(x2 - x1) / (g : ℚ)⌋.toNat + 1) * (⌊(y2 - y1) / (g : ℚ)⌋.toNat + 1) := by
  have hg' : (0 : ℚ) < g := by exact_mod_cast hg
  unfold areaFillPoints
  rw [List.length_flatMap]
  have hx' := gridAxis_length (⌊(x2 - x1) / (g : ℚ)⌋.toNat) x1 x2 (g : ℚ) hg' hx rfl
  have hy' := gridAxis_length (⌊(y2 - y1) / (g : ℚ)⌋.toNat) y1 y2 (g : ℚ) hg' hy rfl
  have hmap : (List.map (List.length ∘ fun y : ℚ =>
      (gridAxis x1 x2 (g : ℚ)).map fun x : ℚ => (x, y)) (gridAxis y1 y2 (g : ℚ)))
      = List.replicate (gridAxis y1 y2 (g : ℚ)).length
        (⌊(x2 - x1) / (g : ℚ)⌋.toNat + 1) := by
    rw [List.eq_replicate_iff]
    constructor
    · simp
    · intro b hb
      simp only [List.mem_map, Function.comp_apply] at hb
      obtain ⟨a, _, rfl⟩ := hb
      rw [List.length_map, hx']
  rw [hmap, List.sum_replicate, smul_eq_mul, hy']
  ring

theorem areaFillPointsOf_pos (areaStart areaEnd : ℚ × ℚ) (bs : ℕ) :
    0 < (areaFillPointsOf areaStart areaEnd bs).length := by
  unfold areaFillPointsOf areaFillGridSize
  rw [areaFillPoints_len _ _ _ _ _
    (lt_of_lt_of_le (by norm_num) (le_max_right (bs / 3) 5))
    (min_le_max) (min_le_max)]
  positivity

theorem areaFillTotalChunks_pos (n : ℕ) (hn : 0 < n) : 0 < areaFillTotalChunks n := by
  unfold areaFillTotalChunks
  omega

/-- C8: on every normally-completing area fill, the values passed to
`onProgress` are `0` followed by `round(k/totalChunks · 100)` after each
chunk `k = 1, …, totalChunks`; the sequence is non-decreasing and its last
element is exactly 100. -/
theorem areaFill_progress_spec (areaStart areaEnd : ℚ × ℚ) (ctx orig : Buffer)
    (tmp : Option Buffer) (bs : ℕ) (sampler : ℕ → List (ℤ × ℤ)) (fault : ℕ → Bool)
    (hfault : ∀ k, fault k = false) :
    (applyMagicBrushToArea areaStart areaEnd ctx orig tmp bs sampler fault).progress
      = 0 :: (List.range
          (areaFillTotalChunks (areaFillPointsOf areaStart areaEnd bs).length)).map
          (fun k => jround ((((k + 1 : ℕ) : ℚ)
            / ((areaFillTotalChunks (areaFillPointsOf areaStart areaEnd bs).length : ℕ) : ℚ))
            * 100)) ∧
    List.Chain' (fun a b : ℤ => a ≤ b)
      (applyMagicBrushToArea areaStart areaEnd ctx orig tmp bs sampler fault).progress ∧
    (applyMagicBrushToArea areaStart areaEnd ctx orig tmp bs sampler
        fault).progress.getLast? = some 100 := by
  have hchar := applyMagicBrushToArea_noFault areaStart areaEnd ctx orig tmp bs sampler
    fault hfault
  set T := areaFillTotalChunks (areaFillPointsOf areaStart areaEnd bs).length with hT
  have hTpos : 0 < T :=
    areaFillTotalChunks_pos _ (areaFillPointsOf_pos areaStart areaEnd bs)
  refine ⟨?_, ?_, ?_⟩
  · rw [hchar]
    simp only
    congr 1
    apply List.map_congr_left
    intro k hk
    exact chunkProgress_le_hundred T k (List.mem_range.mp hk)
  · rw [hchar]
    simp only
    apply List.Pairwise.chain'
    rw [List.pairwise_cons]
    constructor
    · intro b hb
      obtain ⟨k, _, rfl⟩ := List.mem_map.mp hb
      exact chunkProgress_nonneg T k
    · rw [List.pairwise_map]
      exact (List.pairwise_lt_range T).imp fun h => chunkProgress_mono T (le_of_lt h)
  · rw [hchar]
    simp only
    obtain ⟨s, hs⟩ : ∃ s, T = s + 1 := ⟨T - 1, by omega⟩
    rw [hs, List.range_succ, List.map_append, List.map_cons, List.map_nil,
      ← List.cons_append, List.getLast?_concat]
    have hlast := chunkProgress_last (s + 1) (by omega)
    simp only [Nat.add_sub_cancel] at hlast
    rw [hlast]

/-- Witness for `areaFill_progress_spec`: a single-point selection on a 2×2
canvas with a fault-free chunk stream. -/
theorem areaFill_progress_spec_witness :
    (∀ k : ℕ, (fun _ : ℕ => false) k = false) ∧
    ((applyMagicBrushToArea (0, 0) (0, 0) bufA bufB none 1 (fun _ => [])
        (fun _ => false)).progress
      = 0 :: (List.range
          (areaFillTotalChunks (areaFillPointsOf (0, 0) (0, 0) 1).length)).map
          (fun k => jround ((((k + 1 : ℕ) : ℚ)
            / ((areaFillTotalChunks (areaFillPointsOf (0, 0) (0, 0) 1).length : ℕ) : ℚ))
            * 100)) ∧
    List.Chain' (fun a b : ℤ => a ≤ b)
      (applyMagicBrushToArea (0, 0) (0, 0) bufA bufB none 1 (fun _ => [])
        (fun _ => false)).progress ∧
    (applyMagicBrushToArea (0, 0) (0, 0) bufA bufB none 1 (fun _ => [])
        (fun _ => false)).progress.getLast? = some 100) :=
  ⟨fun _ => rfl,
    areaFill_progress_spec (0, 0) (0, 0) bufA bufB none 1 (fun _ => [])
      (fun _ => false) (fun _ => rfl)⟩

/-- C4 (amended): the orchestrator consults no cancellation signal — its run
is identical under every cancellation state of the environment, and every
fault-free run processes all chunks and invokes `onComplete`. -/
theorem areaFill_cancellation_independent (cancelled cancelled' : ℕ → Bool)
    (areaStart areaEnd : ℚ × ℚ) (ctx orig : Buffer) (tmp : Option Buffer)
    (bs : ℕ) (sampler : ℕ → List (ℤ × ℤ)) (fault : ℕ → Bool)
    (hfault : ∀ k, fault k = false) :
    applyMagicBrushToAreaWithCancel cancelled areaStart areaEnd ctx orig tmp bs
        sampler fault
      = applyMagicBrushToAreaWithCancel cancelled' areaStart areaEnd ctx orig tmp bs
        sampler fault ∧
    (applyMagicBrushToAreaWithCancel cancelled areaStart areaEnd ctx orig tmp bs
        sampler fault).completed
      = some ⟨min areaStart.1 areaEnd.1, min areaStart.2 areaEnd.2,
          max areaStart.1 areaEnd.1, max areaStart.2 areaEnd.2, "area-magic-brush"⟩ := by
  refine ⟨rfl, ?_⟩
  unfold applyMagicBrushToAreaWithCancel
  rw [applyMagicBrushToArea_noFault areaStart areaEnd ctx orig tmp bs sampler fault
    hfault]

/-- Witness for `areaFill_cancellation_independent`: the cancellation state
that is `true` everywhere against the one that is `false` everywhere. -/
theorem areaFill_cancellation_independent_witness :
    (∀ k : ℕ, (fun _ : ℕ => false) k = false) ∧
    (applyMagicBrushToAreaWithCancel (fun _ => true) (0, 0) (0, 0) bufA bufB none 1
        (fun _ => []) (fun _ => false)
      = applyMagicBrushToAreaWithCancel (fun _ => false) (0, 0) (0, 0) bufA bufB none 1
        (fun _ => []) (fun _ => false) ∧
    (applyMagicBrushToAreaWithCancel (fun _ => true) (0, 0) (0, 0) bufA bufB none 1
        (fun _ => []) (fun _ => false)).completed
      = some ⟨min (0 : ℚ) 0, min (0 : ℚ) 0, max (0 : ℚ) 0, max (0 : ℚ) 0,
          "area-magic-brush"⟩) :=
  ⟨fun _ => rfl,
    areaFill_cancellation_independent (fun _ => true) (fun _ => false) (0, 0) (0, 0)
      bufA bufB none 1 (fun _ => []) (fun _ => false) (fun _ => rfl)⟩

theorem gridAxis_point : gridAxis 0 0 5 = [0] := by
  rw [gridAxis_cons 0 0 5 le_rfl (by norm_num), gridAxis_nil (0 + 5) 0 5 (by norm_num)]

theorem areaFillPointsOf_tiny : areaFillPointsOf (0, 0) (0, 0) 1 = [(0, 0)] := by
  unfold areaFillPointsOf areaFillPoints
  have hg : ((areaFillGridSize 1 : ℕ) : ℚ) = 5 := by norm_num [areaFillGridSize]
  simp only [min_self, max_self, hg, gridAxis_point]
  rfl

/-- Counterexample to C4 as stated: on a run where cancellation is signaled
before chunk 0 begins, the orchestrator still processes chunk 0's point and
still invokes `onComplete` — the chunk loop never checks any cancellation
signal. -/
theorem areaFill_cancellation_counterexample :
    (fun _ : ℕ => true) 0 = true ∧
    (applyMagicBrushToAreaWithCancel (fun _ => true) (0, 0) (0, 0) bufA bufB none 1
        (fun _ => []) (fun _ => false)).completed
      = some ⟨0, 0, 0, 0, "area-magic-brush"⟩ ∧
    (applyMagicBrushToAreaWithCancel (fun _ => true) (0, 0) (0, 0) bufA bufB none 1
        (fun _ => []) (fun _ => false)).pointsApplied = [(0, 0)] := by
  have hchar := applyMagicBrushToArea_noFault (0, 0) (0, 0) bufA bufB none 1
    (fun _ => []) (fun _ => false) (fun _ => rfl)
  refine ⟨rfl, ?_, ?_⟩
  · unfold applyMagicBrushToAreaWithCancel
    rw [hchar]
    simp
  · unfold applyMagicBrushToAreaWithCancel
    rw [hchar]
    simp only [areaFillPointsOf_tiny]
    rfl

theorem tinyTotalChunks :
    areaFillTotalChunks (areaFillPointsOf (0, 0) (0, 0) 1).length = 1 := by
  rw [areaFillPointsOf_tiny]
  rfl

/-- C7 (amended): if an exception is raised while processing chunk `m`, the
orchestrator stops immediately (no later chunk runs), resets progress to 0
via `onProgress` as the last reported value, leaves the mutations of the
already-applied chunks `0, …, m-1` in the buffer with no rollback, never
invokes `onComplete` — but the error is caught and logged, not re-raised:
it does not propagate to the caller. -/
theorem areaFill_error_spec (areaStart areaEnd : ℚ × ℚ) (ctx orig : Buffer)
    (tmp : Option Buffer) (bs : ℕ) (sampler : ℕ → List (ℤ × ℤ)) (fault : ℕ → Bool)
    (m : ℕ)
    (hm : m < areaFillTotalChunks (areaFillPointsOf areaStart areaEnd bs).length)
    (hprev : ∀ t, t < m → fault t = false) (hf : fault m = true) :
    (applyMagicBrushToArea areaStart areaEnd ctx orig tmp bs sampler
        fault).errorPropagated = false ∧
    (applyMagicBrushToArea areaStart areaEnd ctx orig tmp bs sampler
        fault).completed = none ∧
    (applyMagicBrushToArea areaStart areaEnd ctx orig tmp bs sampler fault).progress
      = 0 :: (List.range m).map
          (chunkProgress (areaFillTotalChunks (areaFillPointsOf areaStart areaEnd bs).length))
        ++ [0] ∧
    (applyMagicBrushToArea areaStart areaEnd ctx orig tmp bs sampler fault).buffer
      = applyChunksUpTo orig bs (generateBrushMask bs) sampler
          (areaFillPointsOf areaStart areaEnd bs) m (tmp.getD ctx) := by
  have hchar := applyMagicBrushToArea_fault areaStart areaEnd ctx orig tmp bs sampler
    fault m hm hprev hf
  exact ⟨by rw [hchar], by rw [hchar], by rw [hchar], by rw [hchar]⟩

/-- Witness for `areaFill_error_spec`: a fault on chunk 0 of a single-point
selection. -/
theorem areaFill_error_spec_witness :
    (fun k : ℕ => decide (k = 0)) 0 = true ∧
    ((applyMagicBrushToArea (0, 0) (0, 0) bufA bufB none 1 (fun _ => [])
        (fun k => decide (k = 0))).errorPropagated = false ∧
    (applyMagicBrushToArea (0, 0) (0, 0) bufA bufB none 1 (fun _ => [])
        (fun k => decide (k = 0))).completed = none ∧
    (applyMagicBrushToArea (0, 0) (0, 0) bufA bufB none 1 (fun _ => [])
        (fun k => decide (k = 0))).progress
      = 0 :: (List.range 0).map
          (chunkProgress (areaFillTotalChunks (areaFillPointsOf (0, 0) (0, 0) 1).length))
        ++ [0] ∧
    (applyMagicBrushToArea (0, 0) (0, 0) bufA bufB none 1 (fun _ => [])
        (fun k => decide (k = 0))).buffer
      = applyChunksUpTo bufB 1 (generateBrushMask 1) (fun _ => [])
          (areaFillPointsOf (0, 0) (0, 0) 1) 0 ((none : Option Buffer).getD bufA)) :=
  ⟨rfl,
    areaFill_error_spec (0, 0) (0, 0) bufA bufB none 1 (fun _ => [])
      (fun k => decide (k = 0)) 0
      (lt_of_lt_of_eq Nat.one_pos tinyTotalChunks.symm)
      (fun t ht => absurd ht (Nat.not_lt_zero t)) rfl⟩

/-- Counterexample to C7 as stated: with an exception raised during chunk 0
of a concrete run, the orchestrator catches it — the run reports
`errorPropagated = false` (the `catch` only logs and resets progress), so
the error is not surfaced to the caller. -/
theorem areaFill_error_counterexample :
    (fun k : ℕ => decide (k = 0)) 0 = true ∧
    (applyMagicBrushToArea (0, 0) (0, 0) bufA bufB none 1 (fun _ => [])
        (fun k => decide (k = 0))).errorPropagated = false ∧
    (applyMagicBrushToArea (0, 0) (0, 0) bufA bufB none 1 (fun _ => [])
        (fun k => decide (k = 0))).completed = none ∧
    (applyMagicBrushToArea (0, 0) (0, 0) bufA bufB none 1 (fun _ => [])
        (fun k => decide (k = 0))).progress = [0, 0] ∧
    (applyMagicBrushToArea (0, 0) (0, 0) bufA bufB none 1 (fun _ => [])
        (fun k => decide (k = 0))).buffer = bufA := by
  have hchar := applyMagicBrushToArea_fault (0, 0) (0, 0) bufA bufB none 1
    (fun _ => []) (fun k => decide (k = 0)) 0
    (lt_of_lt_of_eq Nat.one_pos tinyTotalChunks.symm)
    (fun t ht => absurd ht (Nat.not_lt_zero t)) rfl
  refine ⟨rfl, ?_, ?_, ?_, ?_⟩ <;> rw [hchar] <;> rfl

theorem totalChunks_eq_ceil (n : ℕ) :
    ((areaFillTotalChunks n : ℕ) : ℤ) = ⌈(n : ℚ) / 100⌉ := by
  unfold areaFillTotalChunks
  symm
  rw [Int.ceil_eq_iff]
  set q := (n + 99) / 100 with hq
  constructor
  · rw [lt_div_iff₀ (by norm_num : (0 : ℚ) < 100)]
    have h4 : ((q : ℤ) - 1) * 100 < (n : ℤ) := by omega
    exact_mod_cast h4
  · rw [div_le_iff₀ (by norm_num : (0 : ℚ) < 100)]
    have h5 : (n : ℤ) ≤ (q : ℤ) * 100 := by omega
    exact_mod_cast h5

/-- C6 (amended): for an area fill over a normalized rect of width `W` and
height `H` with grid step `g = max(⌊brushSize/3⌋, 5)`, the number of
generated sample points equals `(⌊W/g⌋+1)·(⌊H/g⌋+1)` — not the spec's
`⌈W/g+1⌉·⌈H/g+1⌉, which overcounts whenever `g` does not divide the side —
and the number of chunks equals `⌈points/100⌉`. -/
theorem areaFill_point_count (x1 y1 x2 y2 : ℚ) (brushSize : ℕ)
    (hx : x1 ≤ x2) (hy : y1 ≤ y2) :
    (areaFillPoints x1 y1 x2 y2 (areaFillGridSize brushSize)).length
      = (⌊(x2 - x1) / ((areaFillGridSize brushSize : ℕ) : ℚ)⌋.toNat + 1)
        * (⌊(y2 - y1) / ((areaFillGridSize brushSize : ℕ) : ℚ)⌋.toNat + 1) ∧
    ((areaFillTotalChunks
        (areaFillPoints x1 y1 x2 y2 (areaFillGridSize brushSize)).length : ℕ) : ℤ)
      = ⌈((areaFillPoints x1 y1 x2 y2 (areaFillGridSize brushSize)).length : ℚ) / 100⌉ :=
  ⟨areaFillPoints_len x1 y1 x2 y2 (areaFillGridSize brushSize)
      (lt_of_lt_of_le (by norm_num) (le_max_right (brushSize / 3) 5)) hx hy,
    totalChunks_eq_ceil _⟩

/-- Witness for `areaFill_point_count`: the rect `(0,0)–(7,7)` with
`brushSize = 15`, i.e. grid step 5. -/
theorem areaFill_point_count_witness :
    (0 : ℚ) ≤ 7 ∧
    ((areaFillPoints 0 0 7 7 (areaFillGridSize 15)).length
      = (⌊((7 : ℚ) - 0) / ((areaFillGridSize 15 : ℕ) : ℚ)⌋.toNat + 1)
        * (⌊((7 : ℚ) - 0) / ((areaFillGridSize 15 : ℕ) : ℚ)⌋.toNat + 1) ∧
    ((areaFillTotalChunks
        (areaFillPoints 0 0 7 7 (areaFillGridSize 15)).length : ℕ) : ℤ)
      = ⌈((areaFillPoints 0 0 7 7 (areaFillGridSize 15)).length : ℚ) / 100⌉) :=
  ⟨by simp, areaFill_point_count 0 0 7 7 15 (by simp) (by simp)⟩

/-- Counterexample to C6 as stated: for the rect `(0,0)–(7,7)` and
`brushSize = 15` (grid step 5) the loop generates `(⌊7/5⌋+1)² = 4` points,
while the claimed fencepost formula `⌈7/5+1⌉² = 9` disagrees. -/
theorem areaFill_point_count_counterexample :
    ((areaFillPoints 0 0 7 7 (areaFillGridSize 15)).length : ℤ)
      ≠ ⌈((7 : ℚ) - 0) / ((areaFillGridSize 15 : ℕ) : ℚ) + 1⌉
        * ⌈((7 : ℚ) - 0) / ((areaFillGridSize 15 : ℕ) : ℚ) + 1⌉ := by
  have hg : areaFillGridSize 15 = 5 := rfl
  have hlen := areaFillPoints_len 0 0 7 7 (areaFillGridSize 15)
    (by rw [hg]; norm_num) (by norm_num) (by norm_num)
  have hceil : ⌈((7 : ℚ) - 0) / ((areaFillGridSize 15 : ℕ) : ℚ) + 1⌉ = 3 := by
    rw [hg]
    rw [Int.ceil_eq_iff]
    norm_num
  rw [hlen, hceil, hg]
  norm_num

/-- C3: invoking the throttled area-fill handler on a degenerate selection
rectangle (normalized width or height below 5 pixels) aborts before any
processing: the canvas buffer is untouched, no magic-brush point is
applied, and neither `onProgress` nor `onComplete` is ever invoked. -/
theorem throttledApplyToArea_degenerate (areaStart areaEnd : ℚ × ℚ)
    (ctx orig : Buffer) (tmp : Option Buffer) (bs : ℕ)
    (sampler : ℕ → List (ℤ × ℤ)) (fault : ℕ → Bool)
    (h : |areaEnd.1 - areaStart.1| < 5 ∨ |areaEnd.2 - areaStart.2| < 5) :
    throttledApplyToArea areaStart areaEnd ctx orig tmp bs sampler fault
      = { buffer := ctx
          progress := []
          pointsApplied := []
          completed := none
          errorPropagated := false } := by
  unfold throttledApplyToArea
  rw [if_pos h]

/-- Witness for `throttledApplyToArea_degenerate`: a zero-size drag. -/
theorem throttledApplyToArea_degenerate_witness :
    |((0, 0) : ℚ × ℚ).1 - ((0, 0) : ℚ × ℚ).1| < 5 ∧
    throttledApplyToArea (0, 0) (0, 0) bufA bufB none 20 (fun _ => [])
        (fun _ => false)
      = { buffer := bufA
          progress := []
          pointsApplied := []
          completed := none
          errorPropagated := false } :=
  ⟨by simp,
    throttledApplyToArea_degenerate (0, 0) (0, 0) bufA bufB none 20 (fun _ => [])
      (fun _ => false) (Or.inl (by simp))⟩

theorem encode_decode (w n : ℕ) :
    ((decodeY w n).toNat * w + (decodeX w n).toNat) * 4 + n % 4 = n := by
  unfold decodeX decodeY
  rw [Int.toNat_natCast, Int.toNat_natCast]
  have h1 : n / 4 / w * w + n / 4 % w = n / 4 := by
    rw [Nat.mul_comm]
    exact Nat.div_add_mod (n / 4) w
  rw [h1]
  omega

theorem decode_encode (w x y c : ℕ) (hx : x < w) (hc : c < 4) :
    decodeX w ((y * w + x) * 4 + c) = (x : ℤ) ∧
    decodeY w ((y * w + x) * 4 + c) = (y : ℤ) ∧
    ((y * w + x) * 4 + c) % 4 = c := by
  have h4 : ((y * w + x) * 4 + c) / 4 = y * w + x := by omega
  have h4' : ((y * w + x) * 4 + c) % 4 = c := by omega
  have hmod : (y * w + x) % w = x := by
    rw [Nat.add_comm, Nat.add_mul_mod_self_right, Nat.mod_eq_of_lt hx]
  have hdiv : (y * w + x) / w = y := by
    rw [Nat.add_comm, Nat.add_mul_div_right _ _ (by omega : 0 < w),
      Nat.div_eq_of_lt hx, Nat.zero_add]
  refine ⟨?_, ?_, h4'⟩
  · unfold decodeX
    rw [h4, hmod]
  · unfold decodeY
    rw [h4, hdiv]

theorem mem_regionGrid (ys xs : List ℤ) (x y : ℤ) :
    (x, y) ∈ ys.flatMap (fun yy : ℤ => xs.map fun xx : ℤ => (xx, yy))
      ↔ x ∈ xs ∧ y ∈ ys := by
  simp only [List.mem_flatMap, List.mem_map]
  constructor
  · rintro ⟨yy, hyy, xx, hxx, heq⟩
    rw [Prod.mk.injEq] at heq
    obtain ⟨rfl, rfl⟩ := heq
    exact ⟨hxx, hyy⟩
  · rintro ⟨hx, hy⟩
    exact ⟨y, hy, x, hx, rfl⟩

theorem mem_computeRegion_iff (buf : Buffer) (x1 y1 x2 y2 x y : ℤ) :
    (x, y) ∈ computeRegion buf x1 y1 x2 y2
      ↔ (max 2 (x1 - 10) ≤ x ∧ x ≤ min ((buf.width : ℤ) - 3) (x2 + 10))
        ∧ (max 2 (y1 - 10) ≤ y ∧ y ≤ min ((buf.height : ℤ) - 3) (y2 + 10)) := by
  unfold computeRegion
  rw [mem_regionGrid, mem_intRange_iff, mem_intRange_iff]
  norm_num [SMOOTHING_KERNEL_SIZE]
  omega

theorem mem_copyRegion_iff (buf : Buffer) (x1 y1 x2 y2 x y : ℤ) :
    (x, y) ∈ copyRegion buf x1 y1 x2 y2
      ↔ (max 0 (x1 - 10) ≤ x ∧ x ≤ min ((buf.width : ℤ) - 1) (x2 + 10))
        ∧ (max 0 (y1 - 10) ≤ y ∧ y ≤ min ((buf.height : ℤ) - 1) (y2 + 10)) := by
  unfold copyRegion
  rw [mem_regionGrid, mem_intRange_iff, mem_intRange_iff]

theorem computeRegion_subset_copyRegion (buf : Buffer) (x1 y1 x2 y2 x y : ℤ)
    (h : (x, y) ∈ computeRegion buf x1 y1 x2 y2) :
    (x, y) ∈ copyRegion buf x1 y1 x2 y2 := by
  rw [mem_computeRegion_iff] at h
  rw [mem_copyRegion_iff]
  obtain ⟨⟨h1, h2⟩, h3, h4⟩ := h
  have hx1 : max 2 (x1 - 10) ≤ x := h1
  have hy1 : max 2 (y1 - 10) ≤ y := h3
  simp only [le_min_iff, min_le_iff, max_le_iff, le_max_iff] at *
  omega

theorem computeRegion_bounds (buf : Buffer) (x1 y1 x2 y2 x y : ℤ)
    (h : (x, y) ∈ computeRegion buf x1 y1 x2 y2) :
    2 ≤ x ∧ x + 3 ≤ (buf.width : ℤ) ∧ 2 ≤ y ∧ y + 3 ≤ (buf.height : ℤ) := by
  rw [mem_computeRegion_iff] at h
  obtain ⟨⟨h1, h2⟩, h3, h4⟩ := h
  simp only [le_min_iff, max_le_iff, le_max_iff] at *
  omega

theorem bilateralWeight_self (buf : Buffer) (x y : ℤ) :
    bilateralWeight buf x y 0 0 = 1 := by
  unfold bilateralWeight
  norm_num

theorem bilateralWeight_nonneg (buf : Buffer) (x y dx dy : ℤ) :
    0 ≤ bilateralWeight buf x y dx dy := by
  unfold bilateralWeight
  positivity

theorem bilateralDen_pos (buf : Buffer) (x y : ℤ)
    (hx0 : 0 ≤ x) (hxw : x < (buf.width : ℤ)) (hy0 : 0 ≤ y) (hyh : y < (buf.height : ℤ)) :
    0 < bilateralDen buf x y := by
  unfold bilateralDen
  have hmem : (if 0 ≤ x + 0 ∧ x + 0 < (buf.width : ℤ) ∧ 0 ≤ y + 0 ∧ y + 0 < (buf.height : ℤ)
      then bilateralWeight buf x y 0 0 else 0)
      ∈ (offsetRange (SMOOTHING_KERNEL_SIZE / 2)).flatMap fun dy : ℤ =>
        (offsetRange (SMOOTHING_KERNEL_SIZE / 2)).map fun dx : ℤ =>
          if 0 ≤ x + dx ∧ x + dx < (buf.width : ℤ) ∧ 0 ≤ y + dy ∧ y + dy < (buf.height : ℤ)
          then bilateralWeight buf x y dx dy else 0 := by
    refine List.mem_flatMap.mpr
      ⟨0, (mem_offsetRange_iff _ 0).mpr (by norm_num [SMOOTHING_KERNEL_SIZE]), ?_⟩
    exact List.mem_map.mpr
      ⟨0, (mem_offsetRange_iff _ 0).mpr (by norm_num [SMOOTHING_KERNEL_SIZE]), rfl⟩
  have hval : (if 0 ≤ x + 0 ∧ x + 0 < (buf.width : ℤ) ∧ 0 ≤ y + 0 ∧ y + 0 < (buf.height : ℤ)
      then bilateralWeight buf x y 0 0 else 0) = 1 := by
    rw [if_pos ⟨by linarith, by linarith, by linarith, by linarith⟩]
    exact bilateralWeight_self buf x y
  have hnn : ∀ r ∈ (offsetRange (SMOOTHING_KERNEL_SIZE / 2)).flatMap fun dy : ℤ =>
      (offsetRange (SMOOTHING_KERNEL_SIZE / 2)).map fun dx : ℤ =>
        if 0 ≤ x + dx ∧ x + dx < (buf.width : ℤ) ∧ 0 ≤ y + dy ∧ y + dy < (buf.height : ℤ)
        then bilateralWeight buf x y dx dy else 0, (0 : ℝ) ≤ r := by
    intro r hr
    obtain ⟨dy, _, hr2⟩ := List.mem_flatMap.mp hr
    obtain ⟨dx, _, rfl⟩ := List.mem_map.mp hr2
    by_cases hb : 0 ≤ x + dx ∧ x + dx < (buf.width : ℤ) ∧ 0 ≤ y + dy ∧ y + dy < (buf.height : ℤ)
    · rw [if_pos hb]
      exact bilateralWeight_nonneg buf x y dx dy
    · rw [if_neg hb]
  have := List.single_le_sum hnn _ hmem
  rw [hval] at this
  linarith

theorem copyRegion_bounds (buf : Buffer) (x1 y1 x2 y2 x y : ℤ)
    (h : (x, y) ∈ copyRegion buf x1 y1 x2 y2) :
    0 ≤ x ∧ x + 1 ≤ (buf.width : ℤ) ∧ 0 ≤ y ∧ y + 1 ≤ (buf.height : ℤ) := by
  rw [mem_copyRegion_iff] at h
  obtain ⟨⟨h1, h2⟩, h3, h4⟩ := h
  simp only [le_min_iff, max_le_iff, le_max_iff] at *
  omega

theorem smoothTempWrites_value (buf : Buffer) (x1 y1 x2 y2 : ℤ) :
    ∀ p ∈ smoothTempWrites buf x1 y1 x2 y2, p.2 = vSmooth buf p.1 := by
  intro p hp
  unfold smoothTempWrites at hp
  simp only [List.mem_flatMap] at hp
  obtain ⟨q, hq, hmem⟩ := hp
  by_cases hden : 0 < bilateralDen buf q.1 q.2
  · rw [if_pos hden] at hmem
    have hreg : (q.1, q.2) ∈ computeRegion buf x1 y1 x2 y2 := by
      rw [Prod.mk.eta]
      exact hq
    obtain ⟨hx2, hxw, hy2, hyh⟩ := computeRegion_bounds buf x1 y1 x2 y2 q.1 q.2 hreg
    have hxlt : q.1.toNat < buf.width := by omega
    have hq1 : ((q.1.toNat : ℕ) : ℤ) = q.1 := Int.toNat_of_nonneg (by omega)
    have hq2 : ((q.2.toNat : ℕ) : ℤ) = q.2 := Int.toNat_of_nonneg (by omega)
    simp only [List.mem_cons, List.not_mem_nil, or_false] at hmem
    rcases hmem with rfl | rfl | rfl
    · obtain ⟨hdx, hdy, hdc⟩ := decode_encode buf.width q.1.toNat q.2.toNat 0 hxlt
        (by omega)
      simp only
      unfold vSmooth
      rw [show (q.2.toNat * buf.width + q.1.toNat) * 4
          = (q.2.toNat * buf.width + q.1.toNat) * 4 + 0 from rfl, hdx, hdy, hdc, hq1, hq2]
    · obtain ⟨hdx, hdy, hdc⟩ := decode_encode buf.width q.1.toNat q.2.toNat 1 hxlt
        (by omega)
      simp only
      unfold vSmooth
      rw [hdx, hdy, hdc, hq1, hq2]
    · obtain ⟨hdx, hdy, hdc⟩ := decode_encode buf.width q.1.toNat q.2.toNat 2 hxlt
        (by omega)
      simp only
      unfold vSmooth
      rw [hdx, hdy, hdc, hq1, hq2]
  · rw [if_neg hden] at hmem
    simp at hmem

theorem smoothCopyWrites_value (buf : Buffer) (x1 y1 x2 y2 : ℤ) :
    ∀ p ∈ smoothCopyWrites buf x1 y1 x2 y2, p.2 = smoothTemp buf x1 y1 x2 y2 p.1 := by
  intro p hp
  unfold smoothCopyWrites at hp
  simp only [List.mem_flatMap, List.mem_cons, List.not_mem_nil, or_false] at hp
  obtain ⟨q, _, hmem⟩ := hp
  rcases hmem with rfl | rfl | rfl <;> rfl

theorem mem_smoothTempWrites_fst (buf : Buffer) (x1 y1 x2 y2 : ℤ) (n : ℕ) :
    n ∈ (smoothTempWrites buf x1 y1 x2 y2).map Prod.fst
      ↔ (decodeX buf.width n, decodeY buf.width n) ∈ computeRegion buf x1 y1 x2 y2
        ∧ n % 4 < 3 := by
  constructor
  · intro h
    obtain ⟨p, hp, rfl⟩ := List.mem_map.mp h
    unfold smoothTempWrites at hp
    simp only [List.mem_flatMap] at hp
    obtain ⟨q, hq, hmem⟩ := hp
    by_cases hden : 0 < bilateralDen buf q.1 q.2
    · rw [if_pos hden] at hmem
      have hreg : (q.1, q.2) ∈ computeRegion buf x1 y1 x2 y2 := by
        rw [Prod.mk.eta]
        exact hq
      obtain ⟨hx2, hxw, hy2, hyh⟩ := computeRegion_bounds buf x1 y1 x2 y2 q.1 q.2 hreg
      have hxlt : q.1.toNat < buf.width := by omega
      have hq1 : ((q.1.toNat : ℕ) : ℤ) = q.1 := Int.toNat_of_nonneg (by omega)
      have hq2 : ((q.2.toNat : ℕ) : ℤ) = q.2 := Int.toNat_of_nonneg (by omega)
      simp only [List.mem_cons, List.not_mem_nil, or_false] at hmem
      rcases hmem with rfl | rfl | rfl
      · obtain ⟨hdx, hdy, hdc⟩ := decode_encode buf.width q.1.toNat q.2.toNat 0 hxlt
          (by omega)
        simp only
        rw [show (q.2.toNat * buf.width + q.1.toNat) * 4
            = (q.2.toNat * buf.width + q.1.toNat) * 4 + 0 from rfl, hdx, hdy, hdc,
          hq1, hq2, Prod.mk.eta]
        exact ⟨hq, by omega⟩
      · obtain ⟨hdx, hdy, hdc⟩ := decode_encode buf.width q.1.toNat q.2.toNat 1 hxlt
          (by omega)
        simp only
        rw [hdx, hdy, hdc, hq1, hq2, Prod.mk.eta]
        exact ⟨hq, by omega⟩
      · obtain ⟨hdx, hdy, hdc⟩ := decode_encode buf.width q.1.toNat q.2.toNat 2 hxlt
          (by omega)
        simp only
        rw [hdx, hdy, hdc, hq1, hq2, Prod.mk.eta]
        exact ⟨hq, by omega⟩
    · rw [if_neg hden] at hmem
      simp at hmem
  · rintro ⟨hreg, hc⟩
    obtain ⟨hx2, hxw, hy2, hyh⟩ := computeRegion_bounds buf x1 y1 x2 y2 _ _ hreg
    have hden : 0 < bilateralDen buf (decodeX buf.width n) (decodeY buf.width n) :=
      bilateralDen_pos buf _ _ (by omega) (by omega) (by omega) (by omega)
    apply List.mem_map.mpr
    refine ⟨(((decodeY buf.width n).toNat * buf.width + (decodeX buf.width n).toNat) * 4
        + n % 4,
      clamp255 (jroundR (bilateralNum buf (decodeX buf.width n) (decodeY buf.width n)
        (n % 4) / bilateralDen buf (decodeX buf.width n) (decodeY buf.width n)))), ?_,
      encode_decode buf.width n⟩
    unfold smoothTempWrites
    refine List.mem_flatMap.mpr ⟨(decodeX buf.width n, decodeY buf.width n), hreg, ?_⟩
    rw [if_pos hden]
    rcases (by omega : n % 4 = 0 ∨ n % 4 = 1 ∨ n % 4 = 2) with hc4 | hc4 | hc4 <;>
      rw [hc4] <;> simp

theorem mem_smoothCopyWrites_fst (buf : Buffer) (x1 y1 x2 y2 : ℤ) (n : ℕ) :
    n ∈ (smoothCopyWrites buf x1 y1 x2 y2).map Prod.fst
      ↔ (decodeX buf.width n, decodeY buf.width n) ∈ copyRegion buf x1 y1 x2 y2
        ∧ n % 4 < 3 := by
  constructor
  · intro h
    obtain ⟨p, hp, rfl⟩ := List.mem_map.mp h
    unfold smoothCopyWrites at hp
    simp only [List.mem_flatMap] at hp
    obtain ⟨q, hq, hmem⟩ := hp
    have hreg : (q.1, q.2) ∈ copyRegion buf x1 y1 x2 y2 := by
      rw [Prod.mk.eta]
      exact hq
    obtain ⟨hx0, hxw, hy0, hyh⟩ := copyRegion_bounds buf x1 y1 x2 y2 q.1 q.2 hreg
    have hxlt : q.1.toNat < buf.width := by omega
    have hq1 : ((q.1.toNat : ℕ) : ℤ) = q.1 := Int.toNat_of_nonneg (by omega)
    have hq2 : ((q.2.toNat : ℕ) : ℤ) = q.2 := Int.toNat_of_nonneg (by omega)
    simp only [List.mem_cons, List.not_mem_nil, or_false] at hmem
    rcases hmem with rfl | rfl | rfl
    · obtain ⟨hdx, hdy, hdc⟩ := decode_encode buf.width q.1.toNat q.2.toNat 0 hxlt
        (by omega)
      simp only
      rw [show (q.2.toNat * buf.width + q.1.toNat) * 4
          = (q.2.toNat * buf.width + q.1.toNat) * 4 + 0 from rfl, hdx, hdy, hdc,
        hq1, hq2, Prod.mk.eta]
      exact ⟨hq, by omega⟩
    · obtain ⟨hdx, hdy, hdc⟩ := decode_encode buf.width q.1.toNat q.2.toNat 1 hxlt
        (by omega)
      simp only
      rw [hdx, hdy, hdc, hq1, hq2, Prod.mk.eta]
      exact ⟨hq, by omega⟩
    · obtain ⟨hdx, hdy, hdc⟩ := decode_encode buf.width q.1.toNat q.2.toNat 2 hxlt
        (by omega)
      simp only
      rw [hdx, hdy, hdc, hq1, hq2, Prod.mk.eta]
      exact ⟨hq, by omega⟩
  · rintro ⟨hreg, hc⟩
    apply List.mem_map.mpr
    refine ⟨(((decodeY buf.width n).toNat * buf.width + (decodeX buf.width n).toNat) * 4
        + n % 4,
      smoothTemp buf x1 y1 x2 y2
        (((decodeY buf.width n).toNat * buf.width + (decodeX buf.width n).toNat) * 4
          + n % 4)), ?_, encode_decode buf.width n⟩
    unfold smoothCopyWrites
    refine List.mem_flatMap.mpr ⟨(decodeX buf.width n, decodeY buf.width n), hreg, ?_⟩
    rcases (by omega : n % 4 = 0 ∨ n % 4 = 1 ∨ n % 4 = 2) with hc4 | hc4 | hc4 <;>
      rw [hc4] <;> simp

theorem applyFinalSmoothing_data (x1 y1 x2 y2 : ℤ) (buf : Buffer) (n : ℕ) :
    (applyFinalSmoothing x1 y1 x2 y2 buf).data n
      = if (decodeX buf.width n, decodeY buf.width n) ∈ computeRegion buf x1 y1 x2 y2
          ∧ n % 4 < 3
        then vSmooth buf n
        else buf.data n := by
  have hcopy := foldWrite_eval (smoothTemp buf x1 y1 x2 y2)
    (smoothCopyWrites buf x1 y1 x2 y2) buf.data (smoothCopyWrites_value buf x1 y1 x2 y2) n
  have htemp := foldWrite_eval (vSmooth buf) (smoothTempWrites buf x1 y1 x2 y2) buf.data
    (smoothTempWrites_value buf x1 y1 x2 y2) n
  show foldWrite (smoothCopyWrites buf x1 y1 x2 y2) buf.data n = _
  rw [hcopy]
  by_cases hcomp : (decodeX buf.width n, decodeY buf.width n)
      ∈ computeRegion buf x1 y1 x2 y2 ∧ n % 4 < 3
  · have hcopymem : n ∈ (smoothCopyWrites buf x1 y1 x2 y2).map Prod.fst :=
      (mem_smoothCopyWrites_fst buf x1 y1 x2 y2 n).mpr
        ⟨computeRegion_subset_copyRegion buf x1 y1 x2 y2 _ _ hcomp.1, hcomp.2⟩
    rw [if_pos hcopymem, if_pos hcomp]
    unfold smoothTemp
    rw [htemp, if_pos ((mem_smoothTempWrites_fst buf x1 y1 x2 y2 n).mpr hcomp)]
  · rw [if_neg hcomp]
    by_cases hcopymem : n ∈ (smoothCopyWrites buf x1 y1 x2 y2).map Prod.fst
    · rw [if_pos hcopymem]
      unfold smoothTemp
      rw [htemp,
        if_neg (fun hmem => hcomp ((mem_smoothTempWrites_fst buf x1 y1 x2 y2 n).mp hmem))]
    · rw [if_neg hcopymem]

/-- C5 (amended): the bilateral pass replaces R, G, B exactly on the
selection rect expanded by 10 and clamped to stay `radius = 2` pixels
inside the buffer borders — not on the full padded rect clamped to the
buffer bounds — with the normalized bilateral weighted average computed
entirely from the pass's input (the scratch copy guarantees no value
written in the pass is read back); every other byte, including everything
outside the padded rect, the border band inside it, and every alpha
channel, is left unchanged. -/
theorem applyFinalSmoothing_spec (x1 y1 x2 y2 : ℤ) (buf : Buffer) (x y : ℤ) (c : ℕ)
    (n : ℕ)
    (hmem : (x, y) ∈ computeRegion buf x1 y1 x2 y2) (hc : c < 3)
    (hn : ¬ ((decodeX buf.width n, decodeY buf.width n) ∈ computeRegion buf x1 y1 x2 y2
      ∧ n % 4 < 3)) :
    (applyFinalSmoothing x1 y1 x2 y2 buf).data ((y.toNat * buf.width + x.toNat) * 4 + c)
      = clamp255 (jroundR (bilateralNum buf x y c / bilateralDen buf x y)) ∧
    (applyFinalSmoothing x1 y1 x2 y2 buf).data n = buf.data n := by
  constructor
  · rw [applyFinalSmoothing_data]
    obtain ⟨hx2, hxw, hy2, hyh⟩ := computeRegion_bounds buf x1 y1 x2 y2 x y hmem
    have hxlt : x.toNat < buf.width := by omega
    obtain ⟨hdx, hdy, hdc⟩ := decode_encode buf.width x.toNat y.toNat c hxlt (by omega)
    have hq1 : ((x.toNat : ℕ) : ℤ) = x := Int.toNat_of_nonneg (by omega)
    have hq2 : ((y.toNat : ℕ) : ℤ) = y := Int.toNat_of_nonneg (by omega)
    have hcond : (decodeX buf.width ((y.toNat * buf.width + x.toNat) * 4 + c),
        decodeY buf.width ((y.toNat * buf.width + x.toNat) * 4 + c))
        ∈ computeRegion buf x1 y1 x2 y2
        ∧ ((y.toNat * buf.width + x.toNat) * 4 + c) % 4 < 3 := by
      rw [hdx, hdy, hdc, hq1, hq2]
      exact ⟨hmem, hc⟩
    rw [if_pos hcond]
    unfold vSmooth
    rw [hdx, hdy, hdc, hq1, hq2]
  · rw [applyFinalSmoothing_data, if_neg hn]

/-- Witness for `applyFinalSmoothing_spec`: pixel `(2, 2)` of the 8×8 test
buffer is recomputed, byte 0 (a border pixel's R channel) is untouched. -/
theorem applyFinalSmoothing_spec_witness :
    (2, 2) ∈ computeRegion cbuf 0 0 7 7 ∧
    ((applyFinalSmoothing 0 0 7 7 cbuf).data
        (((2 : ℤ).toNat * cbuf.width + (2 : ℤ).toNat) * 4 + 0)
      = clamp255 (jroundR (bilateralNum cbuf 2 2 0 / bilateralDen cbuf 2 2)) ∧
    (applyFinalSmoothing 0 0 7 7 cbuf).data 0 = cbuf.data 0) :=
  ⟨by decide,
    applyFinalSmoothing_spec 0 0 7 7 cbuf 2 2 0 0 (by decide) (by decide) (by decide)⟩

theorem exp_weight_lb {a b : ℝ} (ha : a ≤ 1) (hb : b ≤ 1) :
    (1 : ℝ) / 9 ≤ Real.exp (-a) * Real.exp (-b) := by
  have he3 : Real.exp 1 ≤ 3 := by
    have h := Real.exp_one_lt_d9
    linarith
  have hpos := Real.exp_pos (1 : ℝ)
  have hinv : (1 : ℝ) / 3 ≤ Real.exp (-1) := by
    rw [Real.exp_neg, inv_eq_one_div, div_le_div_iff₀ (by norm_num) hpos]
    linarith
  have hea : Real.exp (-1) ≤ Real.exp (-a) := Real.exp_le_exp.mpr (by linarith)
  have heb : Real.exp (-1) ≤ Real.exp (-b) := Real.exp_le_exp.mpr (by linarith)
  have hp1 : (0 : ℝ) < Real.exp (-1) := Real.exp_pos _
  calc (1 : ℝ) / 9 = (1 / 3) * (1 / 3) := by norm_num
    _ ≤ Real.exp (-1) * Real.exp (-1) := by nlinarith
    _ ≤ Real.exp (-a) * Real.exp (-b) := by nlinarith [Real.exp_pos (-a)]

theorem one_le_clamp255 {z : ℤ} (h : 1 ≤ z) : 1 ≤ clamp255 z := by
  unfold clamp255
  rcases le_total z 255 with h' | h'
  · rw [max_eq_right (by omega), min_eq_right h']
    omega
  · rw [max_eq_right (by omega), min_eq_left h']
    omega

/-- Counterexample to C5 as stated: on the 8×8 test buffer with selection
rect `(0,0)–(7,7)`, pixel `(0, 0)` lies in the padded rect clamped to the
buffer bounds, and its claimed replacement — the rounded normalized
bilateral average, which is at least 1 because every in-bounds neighbor has
value 10 — differs from its actual final value 0: the pass's compute loop
starts at `max(radius, ·)` and never recomputes border pixels. -/
theorem applyFinalSmoothing_counterexample :
    (0, 0) ∈ copyRegion cbuf 0 0 7 7 ∧
    cbuf.data 0 = 0 ∧
    (applyFinalSmoothing 0 0 7 7 cbuf).data 0 = 0 ∧
    1 ≤ clamp255 (jroundR (bilateralNum cbuf 0 0 0 / bilateralDen cbuf 0 0)) := by
  refine ⟨by decide, by decide, ?_, ?_⟩
  · rw [applyFinalSmoothing_data, if_neg (by decide)]; decide
  · have hden : bilateralDen cbuf 0 0
        = 1 + (Real.exp (-(1 / 8)) * Real.exp (-(1 / 150)) +
            (Real.exp (-(1 / 2)) * Real.exp (-(1 / 150)) +
              (Real.exp (-(1 / 8)) * Real.exp (-(1 / 150)) +
                (Real.exp (-(1 / 4)) * Real.exp (-(1 / 150)) +
                  (Real.exp (-(5 / 8)) * Real.exp (-(1 / 150)) +
                    (Real.exp (-(1 / 2)) * Real.exp (-(1 / 150)) +
                      (Real.exp (-(5 / 8)) * Real.exp (-(1 / 150)) +
                        Real.exp (-1) * Real.exp (-(1 / 150))))))))) := by
      norm_num [bilateralDen, offsetRange, List.range_succ, bilateralWeight, cbuf,
        SMOOTHING_KERNEL_SIZE, COLOR_SIGMA, show (2 : ℤ).toNat = 2 from rfl]
    have hnum : bilateralNum cbuf 0 0 0
        = 10 * (Real.exp (-(1 / 8)) * Real.exp (-(1 / 150))) +
            (10 * (Real.exp (-(1 / 2)) * Real.exp (-(1 / 150))) +
              (10 * (Real.exp (-(1 / 8)) * Real.exp (-(1 / 150))) +
                (10 * (Real.exp (-(1 / 4)) * Real.exp (-(1 / 150))) +
                  (10 * (Real.exp (-(5 / 8)) * Real.exp (-(1 / 150))) +
                    (10 * (Real.exp (-(1 / 2)) * Real.exp (-(1 / 150))) +
                      (10 * (Real.exp (-(5 / 8)) * Real.exp (-(1 / 150))) +
                        10 * (Real.exp (-1) * Real.exp (-(1 / 150))))))))) := by
      norm_num [bilateralNum, offsetRange, List.range_succ, bilateralWeight, cbuf,
        SMOOTHING_KERNEL_SIZE, COLOR_SIGMA, show (2 : ℤ).toNat = 2 from rfl]
    have hb1 : (1 : ℝ) / 9 ≤ Real.exp (-(1 / 8)) * Real.exp (-(1 / 150)) :=
      exp_weight_lb (by norm_num) (by norm_num)
    have hb2 : (1 : ℝ) / 9 ≤ Real.exp (-(1 / 2)) * Real.exp (-(1 / 150)) :=
      exp_weight_lb (by norm_num) (by norm_num)
    have hb4 : (1 : ℝ) / 9 ≤ Real.exp (-(1 / 4)) * Real.exp (-(1 / 150)) :=
      exp_weight_lb (by norm_num) (by norm_num)
    have hb5 : (1 : ℝ) / 9 ≤ Real.exp (-(5 / 8)) * Real.exp (-(1 / 150)) :=
      exp_weight_lb (by norm_num) (by norm_num)
    have hb8 : (1 : ℝ) / 9 ≤ Real.exp (-1) * Real.exp (-(1 / 150)) := by
      have := exp_weight_lb (le_refl (1 : ℝ)) (by norm_num : (1 : ℝ) / 150 ≤ 1)
      linarith
    have hD : (0 : ℝ) < bilateralDen cbuf 0 0 := by
      rw [hden]
      have p1 := Real.exp_pos (-(1 / 8) : ℝ)
      have p2 := Real.exp_pos (-(1 / 150) : ℝ)
      have p3 := Real.exp_pos (-(1 / 2) : ℝ)
      have p4 := Real.exp_pos (-(1 / 4) : ℝ)
      have p5 := Real.exp_pos (-(5 / 8) : ℝ)
      have p6 := Real.exp_pos (-1 : ℝ)
      positivity
    have hfrac : (1 : ℝ) / 2 ≤ bilateralNum cbuf 0 0 0 / bilateralDen cbuf 0 0 := by
      rw [le_div_iff₀ hD, hnum, hden]
      linarith
    have hjr : (1 : ℤ) ≤ jroundR (bilateralNum cbuf 0 0 0 / bilateralDen cbuf 0 0) := by
      unfold jroundR
      apply Int.le_floor.mpr
      push_cast
      linarith
    exact one_le_clamp255 hjr
